import Mathlib

/-!
# Verification of `surreal/kube/yaml_util.py`

A shallow embedding of the YAML/Jinja utility module.  Python values that
flow through the module (parsed YAML documents, easydict-wrapped documents,
template contexts) are modelled by the inductive type `PyVal`.  The
third-party libraries the module composes (PyYAML's block-style
dumper/loader, easydict's recursive attribute wrapper, contextlib's
generator-based context managers) are modelled from their documented
behaviour on the restricted value domain the theorems quantify over; the
module's own functions (`recursive_to_dict`, `YamlList.__init__`,
`YamlList.__getitem__`, `YamlList.to_string`, `YamlList.from_string`,
`YamlList.temp_file`, `JinjaYaml.render`, `JinjaYaml.render_temp_file`)
are translated line by line from the source.
-/

namespace YamlUtil

/-- A Python value as it occurs in this module: YAML scalars (ints and
strings), Python `list` and `tuple` sequences, plain `dict` mappings and
easydict `EasyDict` mappings (a `dict` subclass).  Mappings are modelled as
association lists in insertion order (Python 3.7+ dicts preserve insertion
order). -/
inductive PyVal where
  | int   : Int → PyVal
  | str   : String → PyVal
  | list  : List PyVal → PyVal
  | tuple : List PyVal → PyVal
  | dict  : List (String × PyVal) → PyVal
  | edict : List (String × PyVal) → PyVal
deriving Repr

/-- Model of `isinstance(v, dict)`: true for plain dicts and for `EasyDict`
(a `dict` subclass). -/
def pyIsDict : PyVal → Bool
  | .dict _ => true
  | .edict _ => true
  | _ => false

mutual

/-- Model of `easydict.EasyDict.__init__`: each key/value pair of the input
mapping is stored through `__setattr__`, which converts the value via
`easyAttr`. -/
def easyDict : List (String × PyVal) → List (String × PyVal)
  | [] => []
  | (k, v) :: rest => (k, easyAttr v) :: easyDict rest

/-- Model of `easydict.EasyDict.__setattr__`'s value conversion: a list or
tuple becomes a `list` whose `dict` elements are wrapped one level; a plain
`dict` value is wrapped into an `EasyDict`; an `EasyDict` value is kept;
scalars are kept. -/
def easyAttr : PyVal → PyVal
  | .list xs => .list (easyElems xs)
  | .tuple xs => .list (easyElems xs)
  | .dict kvs => .edict (easyDict kvs)
  | .edict kvs => .edict kvs
  | v => v

/-- The list comprehension in `EasyDict.__setattr__`:
`[self.__class__(x) if isinstance(x, dict) else x for x in value]`. -/
def easyElems : List PyVal → List PyVal
  | [] => []
  | .dict kvs :: xs => .edict (easyDict kvs) :: easyElems xs
  | .edict kvs :: xs => .edict (easyDict kvs) :: easyElems xs
  | x :: xs => x :: easyElems xs

end

/-- Model of `EasyDict(d)` as called by `YamlList.__init__` on a dict-like `d`. -/
def easyDictWrap : PyVal → PyVal
  | .dict kvs => .edict (easyDict kvs)
  | .edict kvs => .edict (easyDict kvs)
  | v => v

mutual

/-- Function `recursive_to_dict` from `yaml_util.py`, acting on the items of the
argument: for each value, an `EasyDict` is recursively converted, a list or
tuple is rebuilt with the same concrete type with `EasyDict` elements
recursively converted, and any other value is stored unchanged. -/
def recursive_to_dict : List (String × PyVal) → List (String × PyVal)
  | [] => []
  | (k, v) :: rest => (k, rtdValue v) :: recursive_to_dict rest

/-- The per-value branch of `recursive_to_dict`'s loop body. -/
def rtdValue : PyVal → PyVal
  | .edict kvs => .dict (recursive_to_dict kvs)
  | .list xs => .list (rtdElems xs)
  | .tuple xs => .tuple (rtdElems xs)
  | v => v

/-- The generator expression in `recursive_to_dict`:
`recursive_to_dict(v) if isinstance(v, EasyDict) else v for v in value`. -/
def rtdElems : List PyVal → List PyVal
  | [] => []
  | .edict kvs :: xs => .dict (recursive_to_dict kvs) :: rtdElems xs
  | x :: xs => x :: rtdElems xs

end

/-- Function `recursive_to_dict` applied to a whole document (the module always calls
it on an `EasyDict`). -/
def rtdTop : PyVal → PyVal
  | .edict kvs => .dict (recursive_to_dict kvs)
  | .dict kvs => .dict (recursive_to_dict kvs)
  | v => v

mutual

/-- The full wrapper-erasing conversion: every attribute-wrapped mapping at
any nesting depth becomes a plain mapping, sequences keep their concrete
list/tuple type, keys, insertion order and non-mapping leaves are kept
unchanged.  This is the specification-side comparator for
`recursive_to_dict`. -/
def unwrapAll : PyVal → PyVal
  | .edict kvs => .dict (unwrapKVs kvs)
  | .dict kvs => .dict (unwrapKVs kvs)
  | .list xs => .list (unwrapElems xs)
  | .tuple xs => .tuple (unwrapElems xs)
  | v => v

def unwrapKVs : List (String × PyVal) → List (String × PyVal)
  | [] => []
  | (k, v) :: rest => (k, unwrapAll v) :: unwrapKVs rest

def unwrapElems : List PyVal → List PyVal
  | [] => []
  | x :: xs => unwrapAll x :: unwrapElems xs

end

mutual

/-- No attribute-wrapper mapping occurs anywhere in the value. -/
def noEDict : PyVal → Bool
  | .edict _ => false
  | .dict kvs => noEDictKVs kvs
  | .list xs => noEDictList xs
  | .tuple xs => noEDictList xs
  | _ => true

def noEDictKVs : List (String × PyVal) → Bool
  | [] => true
  | (_, v) :: rest => noEDict v && noEDictKVs rest

def noEDictList : List PyVal → Bool
  | [] => true
  | x :: xs => noEDict x && noEDictList xs

end

mutual

/-- The shape invariant of values stored inside an `EasyDict` built by
easydict's recursive wrapping: every value is itself an `EasyDict`
satisfying the invariant, a list whose direct elements are wrapped
(`EasyDict` elements satisfy the invariant, any other element contains no
wrapper at all — easydict does not recurse into nested sequences), or a
non-mapping leaf.  Tuples and plain dicts never occur as direct values,
because `__setattr__` converts both. -/
def edVal : PyVal → Bool
  | .edict kvs => edKVs kvs
  | .dict _ => false
  | .tuple _ => false
  | .list xs => edElems xs
  | _ => true

def edKVs : List (String × PyVal) → Bool
  | [] => true
  | (_, v) :: rest => edVal v && edKVs rest

def edElems : List PyVal → Bool
  | [] => true
  | .edict kvs :: xs => edKVs kvs && edElems xs
  | .dict _ :: _ => false
  | x :: xs => noEDict x && edElems xs

end

/-- The invariant of a whole attribute-wrapped document: an `EasyDict`
whose values satisfy `edVal`. -/
def edDoc : PyVal → Bool
  | .edict kvs => edKVs kvs
  | _ => false

/-! ## The Document Collection (`YamlList`) -/

/-- Python exceptions raised by this module. -/
inductive PyExn where
  | assertionError : PyExn
  | indexError : PyExn
deriving Repr, DecidableEq

/-- Model of `YamlList`: holds `data_list`, the list of `EasyDict`-wrapped
documents. -/
structure YamlList where
  data_list : List PyVal
deriving Repr

/-- The `for d in data_list: assert isinstance(d, dict)` loop of
`YamlList.__init__`: fails with the first non-mapping document. -/
def checkAllDicts : List PyVal → Except PyExn Unit
  | [] => .ok ()
  | d :: ds => if pyIsDict d then checkAllDicts ds else .error .assertionError

/-- Model of `YamlList.__init__(data_list)`: asserts the argument is a `list`,
asserts every element is a mapping, then stores
`[EasyDict(d) for d in data_list]`. -/
def yamlListInit (arg : PyVal) : Except PyExn YamlList :=
  match arg with
  | .list ds =>
    match checkAllDicts ds with
    | .ok _ => .ok ⟨ds.map easyDictWrap⟩
    | .error e => .error e
  | _ => .error .assertionError

/-- Model of `YamlList.from_string(text)`, which is `cls(list(yaml.load_all(text)))`.  The
third-party `yaml.load_all` step is abstracted: this function receives the
already-parsed top-level document stream, in stream order, and models the
constructor call on it. -/
def YamlList.from_docs (docs : List PyVal) : Except PyExn YamlList :=
  yamlListInit (.list docs)

/-- The argument of `YamlList.__getitem__`: either a Python `int` (which in
CPython includes `bool`) or a value of any other type. -/
inductive PyIndex where
  | intIdx : Int → PyIndex
  | nonInt : PyIndex

/-- CPython list subscription `xs[i]` for an `int` index: a negative index
has the length added once, and the result must then lie in range, else
`IndexError` is raised. -/
def pyListGet (xs : List PyVal) (i : Int) : Except PyExn PyVal :=
  let n : Int := xs.length
  let j : Int := if i < 0 then i + n else i
  if h : 0 ≤ j ∧ j < n then
    .ok (xs.get ⟨j.toNat, by omega⟩)
  else
    .error .indexError

/-- Model of `YamlList.__getitem__(index)`: `assert isinstance(index, int)`, then
`self.data_list[index]`. -/
def YamlList.getitem (y : YamlList) (idx : PyIndex) : Except PyExn PyVal :=
  match idx with
  | .intIdx i => pyListGet y.data_list i
  | .nonInt => .error .assertionError

/-! ## Scoped temp files (`temp_file`, `render_temp_file`)

Both functions are `@contextlib.contextmanager` generators of the shape
`create the file; yield the path; os.remove(the path)` with no
`try`/`finally`.  Under contextlib's documented semantics, the statements
after `yield` run only when the caller's `with`-block completes normally;
an exception raised inside the block is thrown into the generator at the
`yield` point and, with no enclosing `try`, propagates immediately —
`os.remove` is skipped. -/

/-- How the caller's `with`-block exits the scope. -/
inductive BlockOutcome where
  | normal : BlockOutcome
  | raises : BlockOutcome

/-- The file system as the set of existing paths. -/
structure FileSys where
  files : List String

/-- Whether a path exists. -/
def FileSys.existsPath (fs : FileSys) (p : String) : Bool :=
  fs.files.contains p

/-- Creating/overwriting a file (`YamlList.save` / `JinjaYaml.render_file`
at the temp path). -/
def FileSys.create (fs : FileSys) (p : String) : FileSys :=
  ⟨p :: fs.files⟩

/-- Model of `os.remove(p)`. -/
def FileSys.remove (fs : FileSys) (p : String) : FileSys :=
  ⟨fs.files.erase p⟩

/-- Model of `YamlList.temp_file`: `self.save(temp_fpath); yield temp_fpath;
os.remove(temp_fpath)`, under generator-based context-manager semantics.
Returns the final file system and whether an exception propagates. -/
def YamlList.temp_file_scope (fs : FileSys) (temp_fpath : String)
    (outcome : BlockOutcome) : FileSys × Bool :=
  let fs1 := fs.create temp_fpath
  match outcome with
  | .normal => (fs1.remove temp_fpath, false)
  | .raises => (fs1, true)

/-- Model of `JinjaYaml.render_temp_file`: `self.render_file(temp_fpath, ...);
yield temp_fpath; os.remove(temp_fpath)` — the same shape as
`YamlList.temp_file`. -/
def JinjaYaml.render_temp_file_scope (fs : FileSys) (temp_fpath : String)
    (outcome : BlockOutcome) : FileSys × Bool :=
  let fs1 := fs.create temp_fpath
  match outcome with
  | .normal => (fs1.remove temp_fpath, false)
  | .raises => (fs1, true)

/-! ## `JinjaYaml.render`: multiline-string escaping

`render` rewrites every context value that is a string containing a newline
into `'"{}"'.format(repr(value)[1:-1])`.  CPython's `repr` of a string
picks `'` as delimiter unless the string contains `'` and no `"`, escapes
the backslash, the chosen delimiter, tab, newline and carriage return,
renders other nonprintable characters as hex escapes, and passes printable
characters through.  The model below is faithful for ASCII characters
(printability of non-ASCII code points is not modelled; the theorems about
this function restrict to ASCII strings). -/

/-- Lowercase hex digit, as CPython's `repr` emits in `\xHH` escapes. -/
def hexDig (n : Nat) : Char :=
  if n < 10 then Char.ofNat (48 + n) else Char.ofNat (87 + n)

/-- How CPython's `repr` renders one character, given the chosen delimiter
`q`. -/
def pyEscChar (q : Char) (c : Char) : List Char :=
  if c = '\\' then ['\\', '\\']
  else if c = q then ['\\', q]
  else if c = '\t' then ['\\', 't']
  else if c = '\n' then ['\\', 'n']
  else if c = '\r' then ['\\', 'r']
  else if c.toNat < 32 ∨ c.toNat = 127 then
    ['\\', 'x', hexDig (c.toNat / 16), hexDig (c.toNat % 16)]
  else [c]

/-- Python's `c in s` membership test on a string. -/
def strContains (s : String) (c : Char) : Bool :=
  s.data.contains c

/-- CPython's `repr` delimiter choice for a string. -/
def pyReprQuote (s : String) : Char :=
  if strContains s '\'' && !(strContains s '"') then '"' else '\''

/-- The interior of `repr(s)`, i.e. `repr(s)[1:-1]`. -/
def pyReprInner (s : String) : List Char :=
  (s.data.map (pyEscChar (pyReprQuote s))).flatten

/-- The rewriting applied by `JinjaYaml.render` to a multiline string
value: `'"{}"'.format(repr(value)[1:-1])`. -/
def renderMultiline (s : String) : String :=
  String.mk ('"' :: pyReprInner s ++ ['"'])

/-- The per-value body of `render`'s context loop: a string value
containing a newline is replaced by its rewritten form, anything else is
kept. -/
def processValue (v : PyVal) : PyVal :=
  match v with
  | .str s => if strContains s '\n' then .str (renderMultiline s) else .str s
  | v => v

/-- Value of one hex digit. -/
def hexVal (c : Char) : Option Nat :=
  if 48 ≤ c.toNat ∧ c.toNat ≤ 57 then some (c.toNat - 48)
  else if 97 ≤ c.toNat ∧ c.toNat ≤ 102 then some (c.toNat - 87)
  else if 65 ≤ c.toNat ∧ c.toNat ≤ 70 then some (c.toNat - 55)
  else none

/-- A YAML double-quoted scalar body: consumes characters up to the
closing `"`, resolving backslash escapes (`\n`, `\t`, `\r`, `\\`, `\"`,
`\xHH`); returns the decoded content and the input remaining after the
closing quote.  A raw (unescaped) newline ends the single-line scalar, so
it is rejected here; an unknown escape or a missing closing quote is also
rejected. -/
def parseDQBody : List Char → Option (List Char × List Char)
  | [] => none
  | '"' :: rest => some ([], rest)
  | '\\' :: 'n' :: rest => (parseDQBody rest).map (fun p => ('\n' :: p.1, p.2))
  | '\\' :: 't' :: rest => (parseDQBody rest).map (fun p => ('\t' :: p.1, p.2))
  | '\\' :: 'r' :: rest => (parseDQBody rest).map (fun p => ('\r' :: p.1, p.2))
  | '\\' :: '\\' :: rest => (parseDQBody rest).map (fun p => ('\\' :: p.1, p.2))
  | '\\' :: '"' :: rest => (parseDQBody rest).map (fun p => ('"' :: p.1, p.2))
  | '\\' :: 'x' :: h1 :: h2 :: rest =>
    match hexVal h1, hexVal h2 with
    | some a, some b =>
      (parseDQBody rest).map (fun p => (Char.ofNat (16 * a + b) :: p.1, p.2))
    | _, _ => none
  | '\\' :: _ => none
  | '\n' :: _ => none
  | c :: rest => (parseDQBody rest).map (fun p => (c :: p.1, p.2))

/-- Parsing a whole string as one YAML double-quoted scalar: an opening
`"`, a body, a closing `"`, and nothing after it. -/
def yamlParseDQ (s : String) : Option String :=
  match s.data with
  | c :: cs =>
    if c = '"' then
      match parseDQBody cs with
      | some (content, []) => some (String.mk content)
      | _ => none
    else none
  | [] => none

/-! ## `JinjaYaml.render`: the context dictionaries

To state that `render` never mutates the caller's context mapping, Python
dictionaries are modelled through a heap of dict objects addressed by
references.  `render(context=ctx, **kwargs)` receives `context_kwargs` as
a fresh dict built by the call, calls `context_kwargs.update(context)`,
and then reassigns `context_kwargs[key]` for each multiline string value;
every write goes to the fresh dict. -/

/-- A heap of Python dict objects. -/
structure DictHeap where
  dicts : List (Nat × List (String × PyVal))

/-- Dereference a dict. -/
def DictHeap.lookupDict (h : DictHeap) (r : Nat) : Option (List (String × PyVal)) :=
  (h.dicts.find? (fun p => p.1 == r)).map (fun p => p.2)

/-- A reference unused by the heap. -/
def DictHeap.freshRef (h : DictHeap) : Nat :=
  (h.dicts.map (fun p => p.1)).foldr max 0 + 1

/-- Write a dict object (newest binding shadows older ones). -/
def DictHeap.writeDict (h : DictHeap) (r : Nat) (kvs : List (String × PyVal)) :
    DictHeap :=
  ⟨(r, kvs) :: h.dicts⟩

/-- Python `dict.update`: existing keys are overwritten in place, new keys
are appended in iteration order. -/
def dictUpdate (base upd : List (String × PyVal)) : List (String × PyVal) :=
  match upd with
  | [] => base
  | (k, v) :: rest =>
    if base.any (fun p => p.1 == k) then
      dictUpdate (base.map (fun p => if p.1 == k then (k, v) else p)) rest
    else
      dictUpdate (base ++ [(k, v)]) rest

/-- Model of `JinjaYaml.render(context, **context_kwargs)`, up to the final
third-party `template.render` call: allocates the fresh `context_kwargs`
dict, merges `context` into it when given, rewrites multiline string
values in place, and returns the heap together with the mapping handed to
the templating engine (`none` when the `assert isinstance(context, dict)`
step cannot dereference a dict). -/
def JinjaYaml.render_ctx (h : DictHeap) (ctxRef : Option Nat)
    (kwargs : List (String × PyVal)) : DictHeap × Option (List (String × PyVal)) :=
  let r := h.freshRef
  let h1 := h.writeDict r kwargs
  match ctxRef with
  | some cr =>
    match h1.lookupDict cr with
    | some ctx =>
      let merged := dictUpdate kwargs ctx
      let h2 := h1.writeDict r merged
      let final := merged.map (fun p => (p.1, processValue p.2))
      (h2.writeDict r final, some final)
    | none => (h1, none)
  | none =>
    let final := kwargs.map (fun p => (p.1, processValue p.2))
    (h1.writeDict r final, some final)

/-! ## `yaml.dump_all` / `yaml.load_all` on the block-style domain

`YamlList.to_string` dumps with `default_flow_style=False, indent=2`;
`YamlList.from_string` loads a multi-document stream.  The third-party
dumper and loader are modelled on the restricted domain `wfDoc` (nested
mappings with plain-safe keys, plain-safe string or integer scalars, and
nonempty scalar sequences): mapping entries as `key: scalar` or `key:`
followed by an indented block, block sequences indentless under their key
(PyYAML's default), documents separated by a `---` line. -/

/-- Decimal digit character. -/
def digChar (n : Nat) : Char := Char.ofNat (48 + n)

/-- Decimal digits of a natural number, most significant first, fuelled by
a bound on the number of digits. -/
def natCharsAux : Nat → Nat → List Char
  | 0, _ => []
  | fuel + 1, n =>
    if n < 10 then [digChar n]
    else natCharsAux fuel (n / 10) ++ [digChar (n % 10)]

/-- Decimal digits of a natural number, most significant first. -/
def natChars (n : Nat) : List Char := natCharsAux (n + 1) n

/-- Decimal rendering of an integer. -/
def intChars (n : Int) : List Char :=
  if n < 0 then '-' :: natChars (-n).toNat else natChars n.toNat

/-- Numeric value of a digit character. -/
def digVal (c : Char) : Nat := c.toNat - 48

/-- Is a decimal digit character. -/
def isDig (c : Char) : Bool := 48 ≤ c.toNat && c.toNat ≤ 57

/-- Natural number denoted by a digit string. -/
def charsNat (cs : List Char) : Nat :=
  cs.foldl (fun a c => a * 10 + digVal c) 0

/-- Does a character list spell an integer literal. -/
def isIntLit (cs : List Char) : Bool :=
  match cs with
  | [] => false
  | c :: rest =>
    if c = '-' then !rest.isEmpty && rest.all isDig
    else (c :: rest).all isDig

/-- Integer denoted by an integer literal. -/
def charsInt (cs : List Char) : Int :=
  match cs with
  | [] => 0
  | c :: rest =>
    if c = '-' then -(charsNat rest : Int)
    else (charsNat (c :: rest) : Int)

/-- Is an ASCII letter. -/
def isAlphaCh (c : Char) : Bool :=
  (65 ≤ c.toNat && c.toNat ≤ 90) || (97 ≤ c.toNat && c.toNat ≤ 122)

/-- Characters allowed after the first character of a plain-safe scalar. -/
def plainChar (c : Char) : Bool :=
  isAlphaCh c || isDig c || c = '_' || c = '-'

/-- YAML 1.1 words that PyYAML's resolver would read back as booleans or
null instead of strings; the plain-safe domain excludes them. -/
def yamlReserved : List String :=
  ["yes", "Yes", "YES", "no", "No", "NO", "true", "True", "TRUE",
   "false", "False", "FALSE", "on", "On", "ON", "off", "Off", "OFF",
   "null", "Null", "NULL"]

/-- A string PyYAML dumps as a plain unquoted scalar and loads back as the
same string: nonempty, starting with a letter, made of letters, digits,
`_` and `-`, and not a reserved YAML word. -/
def plainSafe (s : String) : Bool :=
  match s.data with
  | [] => false
  | c :: cs => isAlphaCh c && cs.all plainChar && !(yamlReserved.contains s)

/-- Is a scalar value (the only sequence element kind in the domain). -/
def isScalarVal : PyVal → Bool
  | .int _ => true
  | .str _ => true
  | _ => false

/-- Keys of a mapping are pairwise distinct (Python dicts collapse
duplicates, so only such association lists model dicts faithfully). -/
def distinctKeys : List (String × PyVal) → Bool
  | [] => true
  | (k, _) :: rest => !(rest.any (fun p => p.1 == k)) && distinctKeys rest

mutual

/-- Wellformedness of a value in the modelled dump/load domain. -/
def wfVal : PyVal → Bool
  | .int _ => true
  | .str s => plainSafe s
  | .list xs => !xs.isEmpty && wfItems xs
  | .dict kvs => !kvs.isEmpty && wfKVs kvs && distinctKeys kvs
  | _ => false

/-- Wellformed sequence items: plain-safe scalars only. -/
def wfItems : List PyVal → Bool
  | [] => true
  | .int _ :: xs => wfItems xs
  | .str s :: xs => plainSafe s && wfItems xs
  | _ => false

/-- Wellformed mapping entries. -/
def wfKVs : List (String × PyVal) → Bool
  | [] => true
  | (k, v) :: rest => plainSafe k && wfVal v && wfKVs rest

end

/-- Wellformed top-level document: a nonempty wellformed mapping. -/
def wfDoc : PyVal → Bool
  | .dict kvs => !kvs.isEmpty && wfKVs kvs && distinctKeys kvs
  | _ => false

/-- A line of output, as characters. -/
abbrev Line := List Char

/-- Indentation of `i` spaces. -/
def ind (i : Nat) : List Char := List.replicate i ' '

/-- The characters of a scalar as dumped. -/
def scalarChars : PyVal → List Char
  | .int n => intChars n
  | .str s => s.data
  | _ => []

mutual

/-- Block-style dump of mapping entries at indentation `i`. -/
def dumpKVs (i : Nat) : List (String × PyVal) → List Line
  | [] => []
  | (k, v) :: rest => dumpEntry i k v ++ dumpKVs i rest

/-- Block-style dump of one mapping entry at indentation `i`: scalars
inline after `: `, sequences as indentless `- ` items, nested mappings as
an indented block. -/
def dumpEntry (i : Nat) (k : String) : PyVal → List Line
  | .int n => [ind i ++ k.data ++ ':' :: ' ' :: intChars n]
  | .str s => [ind i ++ k.data ++ ':' :: ' ' :: s.data]
  | .list xs => (ind i ++ k.data ++ [':']) :: dumpItems i xs
  | .dict kvs => (ind i ++ k.data ++ [':']) :: dumpKVs (i + 2) kvs
  | _ => []

/-- Dump of block sequence items at indentation `i`. -/
def dumpItems (i : Nat) : List PyVal → List Line
  | [] => []
  | x :: xs => (ind i ++ '-' :: ' ' :: scalarChars x) :: dumpItems i xs

end

/-- Dump of one document. -/
def dumpDoc : PyVal → List Line
  | .dict kvs => dumpKVs 0 kvs
  | _ => []

/-- The document separator line `yaml.dump_all` writes between
documents. -/
def docSepLine : Line := ['-', '-', '-']

/-- Join document line blocks with a `---` separator line between
consecutive documents. -/
def joinSep : List (List Line) → List Line
  | [] => []
  | [c] => c
  | c :: rest => c ++ docSepLine :: joinSep rest

/-- Lines of `yaml.dump_all(docs, default_flow_style=False, indent=2)`. -/
def dumpAllLines (docs : List PyVal) : List Line :=
  joinSep (docs.map dumpDoc)

/-- Rebuild the text: every line followed by a newline. -/
def textOfLines (ls : List Line) : String :=
  String.mk ((ls.map (fun l => l ++ ['\n'])).flatten)

/-- Model of `yaml.dump_all` on the modelled domain. -/
def yamlDumpAll (docs : List PyVal) : String :=
  textOfLines (dumpAllLines docs)

/-- Number of leading spaces. -/
def indentOf : Line → Nat
  | ' ' :: rest => indentOf rest + 1
  | _ => 0

/-- Split the content of an entry line at the first `:`. -/
def splitColon : List Char → Option (List Char × List Char)
  | [] => none
  | c :: rest =>
    if c = ':' then some ([], rest)
    else (splitColon rest).map (fun p => (c :: p.1, p.2))

/-- Read a scalar: an integer literal denotes an integer, anything else a
string. -/
def readScalar (cs : List Char) : PyVal :=
  if isIntLit cs then .int (charsInt cs) else .str (String.mk cs)

/-- Is a `- ` sequence item line at indentation `i`. -/
def isItemLine (i : Nat) (l : Line) : Bool :=
  indentOf l = i &&
    match l.drop i with
    | c1 :: c2 :: _ => c1 = '-' && c2 = ' '
    | _ => false

/-- Consume the block sequence items at indentation `i`; the scalar of an
item sits after the `- ` marker, `i + 2` columns in. -/
def takeSeqItems (i : Nat) : List Line → List PyVal × List Line
  | [] => ([], [])
  | l :: rest =>
    if isItemLine i l then
      let (xs, rem) := takeSeqItems i rest
      (readScalar (l.drop (i + 2)) :: xs, rem)
    else ([], l :: rest)

/-- Parse the block-mapping entries at indentation `i`, fuelled by a bound
on recursion depth.  Stops (without consuming) at a dedent; a scalar entry
is `key: value`, a `key:` line opens either an indentless sequence or a
mapping block indented two further columns. -/
def parseKVs (fuel : Nat) (i : Nat) (ls : List Line) :
    Option (List (String × PyVal) × List Line) :=
  match fuel with
  | 0 => none
  | fuel + 1 =>
    match ls with
    | [] => some ([], [])
    | l :: rest =>
      if indentOf l < i then some ([], l :: rest)
      else if i < indentOf l then none
      else
        match splitColon (l.drop i) with
        | none => none
        | some (kcs, after) =>
          if kcs.isEmpty then none
          else
            match after with
            | a :: vcs =>
              if a = ' ' then
                (parseKVs fuel i rest).map
                  (fun p => ((String.mk kcs, readScalar vcs) :: p.1, p.2))
              else none
            | [] =>
              match rest with
              | [] => none
              | l2 :: _ =>
                if isItemLine i l2 then
                  let (xs, rem) := takeSeqItems i rest
                  (parseKVs fuel i rem).map
                    (fun p => ((String.mk kcs, .list xs) :: p.1, p.2))
                else if indentOf l2 = i + 2 then
                  match parseKVs fuel (i + 2) rest with
                  | none => none
                  | some (kvs, rem) =>
                    if kvs.isEmpty then none
                    else
                      (parseKVs fuel i rem).map
                        (fun p => ((String.mk kcs, .dict kvs) :: p.1, p.2))
                else none

/-- Parse one document chunk: its lines must form exactly one nonempty
block mapping. -/
def parseDoc (ls : List Line) : Option PyVal :=
  match parseKVs (ls.length + 1) 0 ls with
  | some (kvs, []) => if kvs.isEmpty then none else some (.dict kvs)
  | _ => none

/-- Split a text into lines; the text must be empty or end in a
newline. -/
def splitNL : List Char → List Line
  | [] => [[]]
  | c :: rest =>
    if c = '\n' then [] :: splitNL rest
    else
      match splitNL rest with
      | l :: ls => (c :: l) :: ls
      | [] => [[c]]

/-- Recover the lines of a dumped text. -/
def linesOf (cs : List Char) : Option (List Line) :=
  if cs.isEmpty then some []
  else
    let parts := splitNL cs
    if parts.getLast? = some [] then some parts.dropLast else none

/-- Split a line stream into document chunks at `---` separator lines. -/
def splitSep : List Line → List (List Line)
  | [] => [[]]
  | l :: rest =>
    if l = docSepLine then [] :: splitSep rest
    else
      match splitSep rest with
      | d :: ds => (l :: d) :: ds
      | [] => [[l]]

/-- Parse every document chunk; fail if any chunk fails. -/
def parseDocs : List (List Line) → Option (List PyVal)
  | [] => some []
  | c :: cs =>
    match parseDoc c, parseDocs cs with
    | some d, some ds => some (d :: ds)
    | _, _ => none

/-- Model of `list(yaml.load_all(text))` on the modelled domain: split into lines,
split into document chunks, parse each chunk as a mapping document. -/
def yamlLoadAll (s : String) : Option (List PyVal) :=
  match linesOf s.data with
  | none => none
  | some [] => some []
  | some ls => parseDocs (splitSep ls)

/-- Model of `YamlList.to_string`: dump `[recursive_to_dict(d) for d in
self.data_list]` through `yaml.dump_all(..., default_flow_style=False,
indent=2)` into a string. -/
def YamlList.to_string (y : YamlList) : String :=
  yamlDumpAll (y.data_list.map rtdTop)

/-- Model of `YamlList.__str__`: `return self.to_string()`. -/
def YamlList.toStr (y : YamlList) : String :=
  y.to_string

/-- The lines following a level-`i` block neither continue it nor sit
deeper: either nothing follows, or the next line is dedented. -/
def stopsKVs (i : Nat) : List Line → Prop
  | [] => True
  | l :: _ => indentOf l < i

/-- The lines following a sequence block do not continue it. -/
def stopsItems (i : Nat) : List Line → Prop
  | [] => True
  | l :: _ => isItemLine i l = false

/-- A good line: no raw newline inside, and distinct from the document
separator. -/
def goodLine (l : Line) : Prop := '\n' ∉ l ∧ l ≠ docSepLine

/-! ## Theorems -/

/-- C0-helper: membership in the checked list. -/
theorem checkAllDicts_ok (ds : List PyVal) (h : ∀ d ∈ ds, pyIsDict d = true) :
    checkAllDicts ds = .ok () := by
  induction ds with
  | nil => rfl
  | cons d ds ih =>
    have hd := h d (by simp)
    simp [checkAllDicts, hd]
    exact ih (fun x hx => h x (by simp [hx]))

theorem checkAllDicts_err (ds : List PyVal) (h : ∃ d ∈ ds, pyIsDict d = false) :
    checkAllDicts ds = .error .assertionError := by
  induction ds with
  | nil => simp at h
  | cons d ds ih =>
    by_cases hd : pyIsDict d = true
    · simp [checkAllDicts, hd]
      apply ih
      rcases h with ⟨x, hx, hxd⟩
      rcases List.mem_cons.mp hx with hx | hx
      · subst hx; rw [hxd] at hd; cases hd
      · exact ⟨x, hx, hxd⟩
    · have hd' : pyIsDict d = false := by revert hd; cases pyIsDict d <;> simp
      simp [checkAllDicts, hd']

/-- C3: a parsed document stream containing a non-mapping top-level
document makes `from_string` fail with the shape assertion, while a stream
of mappings is accepted and stored wrapped, in stream order. -/
theorem from_docs_mapping_check (docs : List PyVal) :
    ((∃ d ∈ docs, pyIsDict d = false) →
      YamlList.from_docs docs = .error .assertionError) ∧
    ((∀ d ∈ docs, pyIsDict d = true) →
      YamlList.from_docs docs = .ok ⟨docs.map easyDictWrap⟩) := by
  constructor
  · intro h
    simp [YamlList.from_docs, yamlListInit, checkAllDicts_err docs h]
  · intro h
    simp [YamlList.from_docs, yamlListInit, checkAllDicts_ok docs h]

/-- C3 witness: the top-level sequence stream parsed from `"- 1\n- 2\n"`
is rejected; two mapping documents are accepted in order. -/
theorem from_docs_mapping_check_witness :
    YamlList.from_docs [.list [.int 1, .int 2]] = .error .assertionError ∧
    YamlList.from_docs [.dict [("a", .int 1)], .dict [("b", .int 2)]] =
      .ok ⟨[.edict [("a", .int 1)], .edict [("b", .int 2)]]⟩ :=
  ⟨(from_docs_mapping_check [.list [.int 1, .int 2]]).1
      ⟨.list [.int 1, .int 2], by simp, rfl⟩,
   ((from_docs_mapping_check [.dict [("a", .int 1)], .dict [("b", .int 2)]]).2
      (by decide)).trans rfl⟩

/-- C8: `YamlList.__init__` requires its argument to be a `list`; a tuple
of mappings is rejected by the first assertion even though every element
is a mapping. -/
theorem init_rejects_tuple (xs : List PyVal) (_h : ∀ x ∈ xs, pyIsDict x = true) :
    yamlListInit (.tuple xs) = .error .assertionError := rfl

/-- C8 witness. -/
theorem init_rejects_tuple_witness :
    yamlListInit (.tuple [.dict [("a", .int 1)]]) = .error .assertionError :=
  init_rejects_tuple [.dict [("a", .int 1)]] (by decide)

/-- C5: indexed access returns the i-th document for `0 ≤ i < n`, raises
`IndexError` for every integer index outside `[-n, n)`, and raises on a
non-integer index. -/
theorem getitem_spec (y : YamlList) (i : Int) :
    (∀ (_h0 : 0 ≤ i) (h1 : i.toNat < y.data_list.length),
      y.getitem (.intIdx i) = .ok (y.data_list.get ⟨i.toNat, h1⟩)) ∧
    ((i < -(y.data_list.length : Int) ∨ (y.data_list.length : Int) ≤ i) →
      y.getitem (.intIdx i) = .error .indexError) ∧
    y.getitem .nonInt = .error .assertionError := by
  refine ⟨?_, ?_, rfl⟩
  · intro h0 h1
    have hni : ¬ i < 0 := by omega
    simp only [YamlList.getitem, pyListGet, hni, if_false]
    rw [dif_pos (by constructor <;> omega)]
  · intro h
    rcases h with h | h
    · have hlt : i < 0 := by omega
      simp only [YamlList.getitem, pyListGet, hlt, if_true]
      rw [dif_neg (by omega)]
    · have hni : ¬ i < 0 := by omega
      simp only [YamlList.getitem, pyListGet, hni, if_false]
      rw [dif_neg (by omega)]

/-- C5 witness on a two-document collection. -/
theorem getitem_spec_witness :
    YamlList.getitem ⟨[.int 10, .int 20]⟩ (.intIdx 0) = .ok (.int 10) ∧
    YamlList.getitem ⟨[.int 10, .int 20]⟩ (.intIdx 5) = .error .indexError ∧
    YamlList.getitem ⟨[.int 10, .int 20]⟩ .nonInt = .error .assertionError :=
  ⟨((getitem_spec ⟨[.int 10, .int 20]⟩ 0).1 (by omega) (by simp)).trans rfl,
   (getitem_spec ⟨[.int 10, .int 20]⟩ 5).2.1 (by right; simp),
   (getitem_spec ⟨[.int 10, .int 20]⟩ 5).2.2⟩

/-- C9: a negative integer index `-n ≤ i ≤ -1` does not fail: it returns
the `(n+i)`-th document (CPython adds the length to a negative index). -/
theorem getitem_negative_index (y : YamlList) (i : Int)
    (h0 : -(y.data_list.length : Int) ≤ i) (h1 : i < 0)
    (hb : (i + y.data_list.length).toNat < y.data_list.length) :
    y.getitem (.intIdx i) =
      .ok (y.data_list.get ⟨(i + y.data_list.length).toNat, hb⟩) := by
  simp only [YamlList.getitem, pyListGet, h1, if_true]
  rw [dif_pos (by constructor <;> omega)]

/-- C9 witness: `get(-1)` returns the last document. -/
theorem getitem_negative_index_witness :
    YamlList.getitem ⟨[.int 10, .int 20]⟩ (.intIdx (-1)) = .ok (.int 20) :=
  (getitem_negative_index ⟨[.int 10, .int 20]⟩ (-1) (by simp) (by omega)
    (by simp)).trans rfl

/-- C7: the string conversion of the collection returns exactly
`to_string()`. -/
theorem str_eq_to_string (y : YamlList) : y.toStr = y.to_string := rfl

/-- C1 evidence: the scoped temp file is deleted on normal exit, but when
the caller's block raises, the generator-based context manager (which has
no `try`/`finally` around its `yield`) never reaches `os.remove`, so the
file persists — contradicting the guaranteed-cleanup specification. -/
theorem temp_file_scope_spec (fs : FileSys) (p : String)
    (hfresh : fs.existsPath p = false) :
    ((YamlList.temp_file_scope fs p .normal).1.existsPath p = false ∧
     (JinjaYaml.render_temp_file_scope fs p .normal).1.existsPath p = false) ∧
    ((YamlList.temp_file_scope fs p .raises).1.existsPath p = true ∧
     (JinjaYaml.render_temp_file_scope fs p .raises).1.existsPath p = true) := by
  refine ⟨⟨?_, ?_⟩, ?_, ?_⟩ <;>
    simp [YamlList.temp_file_scope, JinjaYaml.render_temp_file_scope,
      FileSys.existsPath, FileSys.create, FileSys.remove] <;>
    simpa [FileSys.existsPath] using hfresh

/-- C1 witness. -/
theorem temp_file_scope_spec_witness :
    ((YamlList.temp_file_scope ⟨[]⟩ "kube-1.yml" .normal).1.existsPath "kube-1.yml"
        = false ∧
     (JinjaYaml.render_temp_file_scope ⟨[]⟩ "kube-1.yml" .normal).1.existsPath
        "kube-1.yml" = false) ∧
    ((YamlList.temp_file_scope ⟨[]⟩ "kube-1.yml" .raises).1.existsPath "kube-1.yml"
        = true ∧
     (JinjaYaml.render_temp_file_scope ⟨[]⟩ "kube-1.yml" .raises).1.existsPath
        "kube-1.yml" = true) :=
  temp_file_scope_spec ⟨[]⟩ "kube-1.yml" rfl

theorem mem_le_foldr_max (x : Nat) (xs : List Nat) (h : x ∈ xs) :
    x ≤ xs.foldr max 0 := by
  induction xs with
  | nil => simp at h
  | cons a xs ih =>
    rcases List.mem_cons.mp h with h | h
    · subst h; simp [List.foldr]
    · have := ih h; simp [List.foldr]; omega

/-- The fresh reference is distinct from every dict already on the heap. -/
theorem freshRef_not_mem (h : DictHeap) (cr : Nat)
    (hdom : cr ∈ h.dicts.map (fun p => p.1)) : cr ≠ h.freshRef := by
  have := mem_le_foldr_max cr (h.dicts.map (fun p => p.1)) hdom
  simp only [DictHeap.freshRef]
  omega

/-- Writing one dict leaves every other dict unchanged. -/
theorem lookupDict_writeDict_ne (h : DictHeap) (r cr : Nat)
    (kvs : List (String × PyVal)) (hne : cr ≠ r) :
    (h.writeDict r kvs).lookupDict cr = h.lookupDict cr := by
  simp only [DictHeap.lookupDict, DictHeap.writeDict, List.find?]
  have : (r == cr) = false := beq_eq_false_iff_ne.mpr (fun e => hne e.symm)
  simp [this]

/-- C10: `render` never mutates the caller's context dict: the merge of
`context` into the keyword arguments and the multiline rewriting are
performed on the freshly allocated per-call `context_kwargs` dict, so
every dict already on the heap — in particular the caller's context —
dereferences to the same mapping after the call. -/
theorem render_preserves_caller_context (h : DictHeap) (cr : Nat)
    (hdom : cr ∈ h.dicts.map (fun p => p.1)) (ctxArg : Option Nat)
    (kwargs : List (String × PyVal)) :
    (JinjaYaml.render_ctx h ctxArg kwargs).1.lookupDict cr = h.lookupDict cr := by
  have hne : cr ≠ h.freshRef := freshRef_not_mem h cr hdom
  simp only [JinjaYaml.render_ctx]
  rcases ctxArg with _ | cref
  · simp only []
    rw [lookupDict_writeDict_ne, lookupDict_writeDict_ne] <;> exact hne
  · rcases hctx : (h.writeDict h.freshRef kwargs).lookupDict cref with _ | ctx
    · simp only [hctx]
      rw [lookupDict_writeDict_ne] ; exact hne
    · simp only [hctx]
      rw [lookupDict_writeDict_ne _ _ _ _ hne, lookupDict_writeDict_ne _ _ _ _ hne,
        lookupDict_writeDict_ne _ _ _ _ hne]

/-- C10 witness: a context holding a multiline string is unchanged after
`render` merges and rewrites. -/
theorem render_preserves_caller_context_witness :
    (JinjaYaml.render_ctx ⟨[(1, [("a", .str "x\ny")])]⟩ (some 1)
        [("b", .int 7)]).1.lookupDict 1 =
      DictHeap.lookupDict ⟨[(1, [("a", .str "x\ny")])]⟩ 1 :=
  render_preserves_caller_context ⟨[(1, [("a", .str "x\ny")])]⟩ 1 (by simp)
    (some 1) [("b", .int 7)]

/-- A wrapper-free value is a fixed point of the wrapper-erasing map. -/
theorem unwrap_fix_all : ∀ v : PyVal, noEDict v = true → unwrapAll v = v := by
  refine unwrapAll.induct (fun v => noEDict v = true → unwrapAll v = v)
    (fun xs => noEDictList xs = true → unwrapElems xs = xs)
    (fun kvs => noEDictKVs kvs = true → unwrapKVs kvs = kvs)
    ?_ ?_ ?_ ?_ ?_ ?_ ?_ ?_ ?_
  · intro kvs _ h; simp [noEDict] at h
  · intro kvs ih h
    simp only [noEDict] at h
    simp [unwrapAll, ih h]
  · intro xs ih h
    simp only [noEDict] at h
    simp [unwrapAll, ih h]
  · intro xs ih h
    simp only [noEDict] at h
    simp [unwrapAll, ih h]
  · intro v h1 h2 h3 h4 _h
    cases v with
    | edict kvs => exact absurd rfl (h1 kvs)
    | dict kvs => exact absurd rfl (h2 kvs)
    | list xs => exact absurd rfl (h3 xs)
    | tuple xs => exact absurd rfl (h4 xs)
    | int n => simp [unwrapAll]
    | str s => simp [unwrapAll]
  · intro _; simp [unwrapElems]
  · intro x xs ihx ihxs h
    simp only [noEDictList, Bool.and_eq_true] at h
    simp [unwrapElems, ihx h.1, ihxs h.2]
  · intro _; simp [unwrapKVs]
  · intro k v rest ihv ihr h
    simp only [noEDictKVs, Bool.and_eq_true] at h
    simp [unwrapKVs, ihv h.1, ihr h.2]

/-- The wrapper-erasing map leaves no wrapper behind. -/
theorem noEDict_unwrap_all : ∀ v : PyVal, noEDict (unwrapAll v) = true := by
  refine unwrapAll.induct (fun v => noEDict (unwrapAll v) = true)
    (fun xs => noEDictList (unwrapElems xs) = true)
    (fun kvs => noEDictKVs (unwrapKVs kvs) = true)
    ?_ ?_ ?_ ?_ ?_ ?_ ?_ ?_ ?_
  · intro kvs ih; simp [unwrapAll, noEDict, ih]
  · intro kvs ih; simp [unwrapAll, noEDict, ih]
  · intro xs ih; simp [unwrapAll, noEDict, ih]
  · intro xs ih; simp [unwrapAll, noEDict, ih]
  · intro v h1 h2 h3 h4
    cases v with
    | edict kvs => exact absurd rfl (h1 kvs)
    | dict kvs => exact absurd rfl (h2 kvs)
    | list xs => exact absurd rfl (h3 xs)
    | tuple xs => exact absurd rfl (h4 xs)
    | int n => simp [unwrapAll, noEDict]
    | str s => simp [unwrapAll, noEDict]
  · simp [unwrapElems, noEDictList]
  · intro x xs ihx ihxs; simp [unwrapElems, noEDictList, ihx, ihxs]
  · simp [unwrapKVs, noEDictKVs]
  · intro k v rest ihv ihr; simp [unwrapKVs, noEDictKVs, ihv, ihr]

/-- On values satisfying the easydict wrapping invariant,
`recursive_to_dict`'s per-value conversion agrees with the full
wrapper-erasing map. -/
theorem rtd_eq_unwrap : ∀ v : PyVal, edVal v = true → rtdValue v = unwrapAll v := by
  refine rtdValue.induct
    (fun kvs => edKVs kvs = true → recursive_to_dict kvs = unwrapKVs kvs)
    (fun v => edVal v = true → rtdValue v = unwrapAll v)
    (fun xs => edElems xs = true → rtdElems xs = unwrapElems xs)
    ?_ ?_ ?_ ?_ ?_ ?_ ?_ ?_ ?_
  · intro kvs ih h
    simp only [edVal] at h
    simp [rtdValue, unwrapAll, ih h]
  · intro xs ih h
    simp only [edVal] at h
    simp [rtdValue, unwrapAll, ih h]
  · intro xs _ h; simp [edVal] at h
  · intro v h1 h2 h3 _h
    cases v with
    | edict kvs => exact absurd rfl (h1 kvs)
    | list xs => exact absurd rfl (h2 xs)
    | tuple xs => exact absurd rfl (h3 xs)
    | dict kvs => simp [edVal] at _h
    | int n => simp [rtdValue, unwrapAll]
    | str s => simp [rtdValue, unwrapAll]
  · intro _; simp [rtdElems, unwrapElems]
  · intro kvs xs ihk ihxs h
    simp only [edElems, Bool.and_eq_true] at h
    simp [rtdElems, unwrapElems, unwrapAll, ihk h.1, ihxs h.2]
  · intro x xs hne ihxs h
    cases x with
    | edict kvs => exact absurd rfl (hne kvs)
    | dict kvs => simp [edElems] at h
    | int n =>
      simp only [edElems, Bool.and_eq_true] at h
      simp [rtdElems, unwrapElems, unwrapAll, ihxs h.2]
    | str s =>
      simp only [edElems, Bool.and_eq_true] at h
      simp [rtdElems, unwrapElems, unwrapAll, ihxs h.2]
    | list ys =>
      simp only [edElems, Bool.and_eq_true] at h
      simp [rtdElems, ihxs h.2, unwrapElems, unwrap_fix_all (.list ys) h.1]
    | tuple ys =>
      simp only [edElems, Bool.and_eq_true] at h
      simp [rtdElems, ihxs h.2, unwrapElems, unwrap_fix_all (.tuple ys) h.1]
  · intro _; simp [recursive_to_dict, unwrapKVs]
  · intro k v rest ihv ihr h
    simp only [edKVs, Bool.and_eq_true] at h
    simp [recursive_to_dict, unwrapKVs, ihv h.1, ihr h.2]

/-- C6: on every attribute-wrapped document, `recursive_to_dict` equals
the full wrapper-erasing conversion — every wrapped mapping becomes a
plain mapping, sequences keep their concrete type with their wrapped
elements converted, and keys, insertion order and non-mapping leaves are
unchanged — and its result contains no attribute-wrapper mapping at any
nesting depth. -/
theorem recursive_to_dict_spec (v : PyVal) (h : edDoc v = true) :
    rtdTop v = unwrapAll v ∧ noEDict (rtdTop v) = true := by
  cases v with
  | edict kvs =>
    have h' : edKVs kvs = true := by simpa [edDoc] using h
    have e1 : recursive_to_dict kvs = unwrapKVs kvs := by
      have h2 := rtd_eq_unwrap (.edict kvs) (by simpa [edVal] using h')
      simp only [rtdValue, unwrapAll, PyVal.dict.injEq] at h2
      exact h2
    constructor
    · simp [rtdTop, unwrapAll, e1]
    · have h3 := noEDict_unwrap_all (.edict kvs)
      simp only [unwrapAll] at h3
      simp [rtdTop, e1, h3]
  | dict kvs => simp [edDoc] at h
  | list xs => simp [edDoc] at h
  | tuple xs => simp [edDoc] at h
  | int n => simp [edDoc] at h
  | str s => simp [edDoc] at h

/-- C6 witness: a wrapped document with a nested wrapped mapping and a
sequence holding a wrapped element. -/
theorem recursive_to_dict_spec_witness :
    edDoc (.edict [("a", .int 1), ("b", .edict [("c", .str "x")]),
      ("d", .list [.edict [("e", .int 2)], .int 3])]) = true ∧
    rtdTop (.edict [("a", .int 1), ("b", .edict [("c", .str "x")]),
        ("d", .list [.edict [("e", .int 2)], .int 3])]) =
      unwrapAll (.edict [("a", .int 1), ("b", .edict [("c", .str "x")]),
        ("d", .list [.edict [("e", .int 2)], .int 3])]) ∧
    noEDict (rtdTop (.edict [("a", .int 1), ("b", .edict [("c", .str "x")]),
        ("d", .list [.edict [("e", .int 2)], .int 3])])) = true := by
  refine ⟨rfl, ?_⟩
  exact recursive_to_dict_spec (.edict [("a", .int 1), ("b", .edict [("c", .str "x")]),
    ("d", .list [.edict [("e", .int 2)], .int 3])]) rfl

theorem strContains_iff (s : String) (c : Char) :
    strContains s c = true ↔ c ∈ s.data := by
  simp [strContains, List.contains]

theorem hexVal_hexDig (n : Nat) (h : n < 16) : hexVal (hexDig n) = some n := by
  interval_cases n <;> decide

theorem hexDig_ne_nl (n : Nat) (h : n < 16) : hexDig n ≠ '\n' := by
  interval_cases n <;> decide

/-- One escaped character is decoded back to itself, in front of any
remaining input. -/
theorem parseDQBody_esc (q c : Char) (tl : List Char)
    (h128 : c.toNat < 128) (hq : c ≠ '"') (hcq : c ≠ q) :
    parseDQBody (pyEscChar q c ++ tl) =
      (parseDQBody tl).map (fun p => (c :: p.1, p.2)) := by
  by_cases h1 : c = '\\'
  · subst h1; simp [pyEscChar, parseDQBody]
  by_cases h2 : c = '\t'
  · subst h2; simp [pyEscChar, hcq, parseDQBody]
  by_cases h3 : c = '\n'
  · subst h3; simp [pyEscChar, hcq, parseDQBody]
  by_cases h4 : c = '\r'
  · subst h4; simp [pyEscChar, hcq, parseDQBody]
  by_cases h5 : c.toNat < 32 ∨ c.toNat = 127
  · have e1 : pyEscChar q c =
        ['\\', 'x', hexDig (c.toNat / 16), hexDig (c.toNat % 16)] := by
      simp [pyEscChar, h1, hcq, h2, h3, h4, h5]
    rw [e1]
    have hdiv : c.toNat / 16 < 16 := by omega
    have hmod : c.toNat % 16 < 16 := by omega
    simp only [List.cons_append, List.nil_append, parseDQBody,
      hexVal_hexDig _ hdiv, hexVal_hexDig _ hmod]
    have : 16 * (c.toNat / 16) + c.toNat % 16 = c.toNat := by omega
    rw [this, Char.ofNat_toNat]
    simp
  · have e1 : pyEscChar q c = [c] := by
      simp [pyEscChar, h1, hcq, h2, h3, h4, h5]
    rw [e1]
    simp only [List.cons_append, List.nil_append]
    rw [parseDQBody.eq_def]
    split <;> simp_all

/-- The whole escaped interior, followed by the closing quote, decodes to
the original characters and consumes the full input. -/
theorem parseDQBody_inner (q : Char) (cs : List Char)
    (h : ∀ c ∈ cs, c.toNat < 128 ∧ c ≠ '"' ∧ c ≠ q) :
    parseDQBody ((cs.map (pyEscChar q)).flatten ++ ['"']) = some (cs, []) := by
  induction cs with
  | nil => simp [parseDQBody]
  | cons c cs ih =>
    have hc := h c (by simp)
    simp only [List.map_cons, List.flatten_cons, List.append_assoc]
    rw [parseDQBody_esc q c _ hc.1 hc.2.1 hc.2.2]
    rw [ih (fun x hx => h x (by simp [hx]))]
    rfl

theorem nl_not_mem_esc (q c : Char) (hq : q ≠ '\n') :
    '\n' ∉ pyEscChar q c := by
  by_cases h1 : c = '\\'
  · subst h1; simp [pyEscChar]
  rw [pyEscChar]
  rw [if_neg h1]
  by_cases h2 : c = q
  · rw [if_pos h2]; simp [Ne.symm hq]
  rw [if_neg h2]
  by_cases h3 : c = '\t'
  · subst h3; simp
  rw [if_neg h3]
  by_cases h4 : c = '\n'
  · subst h4; simp
  rw [if_neg h4]
  by_cases h5 : c = '\r'
  · subst h5; simp
  rw [if_neg h5]
  by_cases h6 : c.toNat < 32 ∨ c.toNat = 127
  · rw [if_pos h6]
    have hdiv : c.toNat / 16 < 16 := by omega
    have hmod : c.toNat % 16 < 16 := by omega
    simp [hexDig_ne_nl _ hdiv, hexDig_ne_nl _ hmod]
    constructor <;> intro he <;>
      [exact hexDig_ne_nl _ hdiv he.symm; exact hexDig_ne_nl _ hmod he.symm]
  · rw [if_neg h6]
    simp
    exact fun he => h4 he.symm

/-- C2 (amended): for every ASCII string value containing a newline and no
double-quote character, `render` rewrites it into a single-line
double-quote-delimited literal whose rendered form has no raw newline, and
parsing that literal as a YAML double-quoted scalar yields the original
string back. -/
theorem render_multiline_no_quote_roundtrip (s : String)
    (hnl : strContains s '\n' = true)
    (hq : '"' ∉ s.data)
    (hascii : ∀ c ∈ s.data, c.toNat < 128) :
    processValue (.str s) = .str (renderMultiline s) ∧
    '\n' ∉ (renderMultiline s).data ∧
    yamlParseDQ (renderMultiline s) = some s := by
  have hcq : ∀ c ∈ s.data, c ≠ pyReprQuote s := by
    intro c hc
    rw [pyReprQuote]
    by_cases hcond : (strContains s '\'' && !strContains s '"') = true
    · rw [if_pos hcond]
      exact fun he => hq (he ▸ hc)
    · rw [if_neg hcond]
      have hq' : strContains s '"' = false := by
        cases hb : strContains s '"'
        · rfl
        · exact absurd ((strContains_iff s '"').mp hb) hq
      have hq1 : strContains s '\'' = false := by
        cases hb : strContains s '\''
        · rfl
        · exact absurd (by simp [hb, hq']) hcond
      intro he
      have : '\'' ∈ s.data := he ▸ hc
      rw [← strContains_iff s '\''] at this
      rw [hq1] at this
      cases this
  have hqnl : pyReprQuote s ≠ '\n' := by
    rw [pyReprQuote]
    by_cases hcond : (strContains s '\'' && !strContains s '"') = true
    · rw [if_pos hcond]; decide
    · rw [if_neg hcond]; decide
  refine ⟨by simp [processValue, hnl], ?_, ?_⟩
  · intro hmem
    simp only [renderMultiline, pyReprInner] at hmem
    rcases List.mem_cons.mp hmem with he | hmem
    · cases he
    rcases List.mem_append.mp hmem with hmem | hmem
    · rcases List.mem_flatten.mp hmem with ⟨l, hl, hnlmem⟩
      rcases List.mem_map.mp hl with ⟨c, _, rfl⟩
      exact nl_not_mem_esc (pyReprQuote s) c hqnl hnlmem
    · simp at hmem
  · have hred : ∀ X : List Char, yamlParseDQ (String.mk ('"' :: X)) =
        (match parseDQBody X with
         | some (content, []) => some (String.mk content)
         | _ => none) := fun _ => rfl
    simp only [renderMultiline, pyReprInner]
    rw [List.cons_append, hred]
    rw [parseDQBody_inner (pyReprQuote s) s.data
      (fun c hc => ⟨hascii c hc, fun he => hq (he ▸ hc), hcq c hc⟩)]

/-- C2 witness: a two-line ASCII string without quote characters. -/
theorem render_multiline_no_quote_roundtrip_witness :
    processValue (.str "hello\nworld") = .str (renderMultiline "hello\nworld") ∧
    '\n' ∉ (renderMultiline "hello\nworld").data ∧
    yamlParseDQ (renderMultiline "hello\nworld") = some "hello\nworld" :=
  render_multiline_no_quote_roundtrip "hello\nworld" rfl (by decide) (by decide)

/-- C2 counterexample: the multiline value `a"b\nc` contains a double
quote, so `repr` picks `'` as its delimiter and leaves the `"` unescaped;
the rewritten literal `"a"b\nc"` is not a wellformed double-quoted scalar
and does not parse back to the original string. -/
theorem render_multiline_double_quote_breaks :
    strContains "a\"b\nc" '\n' = true ∧
    renderMultiline "a\"b\nc" = "\"a\"b\\nc\"" ∧
    yamlParseDQ (renderMultiline "a\"b\nc") = none :=
  ⟨rfl, rfl, rfl⟩

/-! ### Decimal scalars round-trip -/

theorem charsNat_append_digit (xs : List Char) (d : Char) :
    charsNat (xs ++ [d]) = charsNat xs * 10 + digVal d := by
  simp [charsNat, List.foldl_append]

theorem digVal_digChar (n : Nat) (h : n < 10) : digVal (digChar n) = n := by
  interval_cases n <;> decide

theorem isDig_digChar (n : Nat) (h : n < 10) : isDig (digChar n) = true := by
  interval_cases n <;> decide

theorem charsNat_natCharsAux (fuel n : Nat) (h : n < fuel) :
    charsNat (natCharsAux fuel n) = n := by
  induction fuel generalizing n with
  | zero => omega
  | succ fuel ih =>
    rw [natCharsAux]
    by_cases h10 : n < 10
    · rw [if_pos h10]
      simp [charsNat, digVal_digChar n h10]
    · rw [if_neg h10, charsNat_append_digit, ih (n / 10) (by omega),
        digVal_digChar _ (by omega)]
      omega

theorem charsNat_natChars (n : Nat) : charsNat (natChars n) = n :=
  charsNat_natCharsAux (n + 1) n (by omega)

theorem natCharsAux_digits (fuel n : Nat) :
    (natCharsAux fuel n).all isDig = true := by
  induction fuel generalizing n with
  | zero => rfl
  | succ fuel ih =>
    rw [natCharsAux]
    by_cases h10 : n < 10
    · rw [if_pos h10]; simp [isDig_digChar n h10]
    · rw [if_neg h10]
      simp [List.all_append, ih (n / 10), isDig_digChar (n % 10) (by omega)]

theorem natChars_ne_nil (n : Nat) : natChars n ≠ [] := by
  rw [natChars, natCharsAux]
  by_cases h10 : n < 10
  · rw [if_pos h10]; simp
  · rw [if_neg h10]; simp

theorem not_isDig_dash : isDig '-' = false := by decide

theorem isIntLit_digits (cs : List Char) (hne : cs ≠ [])
    (hd : cs.all isDig = true) : isIntLit cs = true := by
  rcases cs with _ | ⟨c, rest⟩
  · exact absurd rfl hne
  · simp only [List.all_cons, Bool.and_eq_true] at hd
    have hcd : c ≠ '-' := by
      intro he; rw [he] at hd; rw [not_isDig_dash] at hd; cases hd.1
    rw [isIntLit, if_neg hcd]
    simp [hd.1, hd.2]

theorem charsInt_digits (cs : List Char) (hne : cs ≠ [])
    (hd : cs.all isDig = true) : charsInt cs = (charsNat cs : Int) := by
  rcases cs with _ | ⟨c, rest⟩
  · exact absurd rfl hne
  · simp only [List.all_cons, Bool.and_eq_true] at hd
    have hcd : c ≠ '-' := by
      intro he; rw [he] at hd; rw [not_isDig_dash] at hd; cases hd.1
    rw [charsInt, if_neg hcd]

theorem readScalar_int (n : Int) : readScalar (intChars n) = .int n := by
  rw [readScalar, intChars]
  by_cases hn : n < 0
  · rw [if_pos hn]
    have hne : natChars (-n).toNat ≠ [] := natChars_ne_nil _
    have hd := natCharsAux_digits ((-n).toNat + 1) (-n).toNat
    rw [natChars] at hne ⊢
    have hlit : isIntLit ('-' :: natCharsAux ((-n).toNat + 1) (-n).toNat) = true := by
      rw [isIntLit, if_pos rfl]
      simp only [hd, Bool.and_true]
      simpa using hne
    rw [if_pos hlit, charsInt, if_pos rfl, charsNat_natCharsAux _ _ (by omega)]
    congr 1
    omega
  · rw [if_neg hn]
    have hne : natChars n.toNat ≠ [] := natChars_ne_nil _
    have hd := natCharsAux_digits (n.toNat + 1) n.toNat
    rw [natChars] at hne ⊢
    rw [if_pos (isIntLit_digits _ hne hd), charsInt_digits _ hne hd,
      charsNat_natCharsAux _ _ (by omega)]
    congr 1
    omega

/-! ### Plain-safe scalars -/

theorem isAlphaCh_toNat (c : Char) (h : isAlphaCh c = true) :
    (65 ≤ c.toNat ∧ c.toNat ≤ 90) ∨ (97 ≤ c.toNat ∧ c.toNat ≤ 122) := by
  simp only [isAlphaCh, Bool.or_eq_true, Bool.and_eq_true, decide_eq_true_eq] at h
  exact h

theorem isAlphaCh_ne (c : Char) (h : isAlphaCh c = true) :
    c ≠ ' ' ∧ c ≠ '-' ∧ c ≠ ':' ∧ c ≠ '\n' ∧ isDig c = false := by
  refine ⟨?_, ?_, ?_, ?_, ?_⟩
  · intro he; subst he; exact absurd h (by decide)
  · intro he; subst he; exact absurd h (by decide)
  · intro he; subst he; exact absurd h (by decide)
  · intro he; subst he; exact absurd h (by decide)
  · have ht := isAlphaCh_toNat c h
    cases hb : isDig c
    · rfl
    · simp only [isDig, Bool.and_eq_true, decide_eq_true_eq] at hb
      omega

theorem plainChar_ne (c : Char) (h : plainChar c = true) :
    c ≠ ':' ∧ c ≠ '\n' := by
  simp only [plainChar, Bool.or_eq_true] at h
  rcases h with ((h | h) | h) | h
  · exact ⟨(isAlphaCh_ne c h).2.2.1, (isAlphaCh_ne c h).2.2.2.1⟩
  · constructor <;> intro he <;> subst he <;> exact absurd h (by decide)
  · simp only [decide_eq_true_eq] at h
    subst h; constructor <;> decide
  · simp only [decide_eq_true_eq] at h
    subst h; constructor <;> decide

theorem plainSafe_shape (s : String) (h : plainSafe s = true) :
    ∃ c cs, s.data = c :: cs ∧ isAlphaCh c = true ∧
      ∀ x ∈ cs, plainChar x = true := by
  rcases hs : s.data with _ | ⟨c, cs⟩
  · rw [plainSafe, hs] at h; cases h
  · rw [plainSafe, hs] at h
    simp only [Bool.and_eq_true, List.all_eq_true] at h
    exact ⟨c, cs, rfl, h.1.1, h.1.2⟩

theorem plainSafe_no_colon (s : String) (h : plainSafe s = true) :
    ':' ∉ s.data := by
  rcases plainSafe_shape s h with ⟨c, cs, hdata, hc, hcs⟩
  rw [hdata]
  intro hmem
  rcases List.mem_cons.mp hmem with he | hmem
  · exact (isAlphaCh_ne c hc).2.2.1 he.symm
  · exact (plainChar_ne ':' (hcs ':' hmem)).1 rfl

theorem plainSafe_no_nl (s : String) (h : plainSafe s = true) :
    '\n' ∉ s.data := by
  rcases plainSafe_shape s h with ⟨c, cs, hdata, hc, hcs⟩
  rw [hdata]
  intro hmem
  rcases List.mem_cons.mp hmem with he | hmem
  · exact (isAlphaCh_ne c hc).2.2.2.1 he.symm
  · exact (plainChar_ne '\n' (hcs '\n' hmem)).2 rfl

theorem readScalar_str (s : String) (h : plainSafe s = true) :
    readScalar s.data = .str s := by
  rcases plainSafe_shape s h with ⟨c, cs, hdata, hc, _⟩
  have hlit : isIntLit s.data = false := by
    rw [hdata, isIntLit, if_neg (isAlphaCh_ne c hc).2.1]
    simp [List.all_cons, (isAlphaCh_ne c hc).2.2.2.2]
  rw [readScalar, hlit]
  simp

/-! ### Lines and indentation -/

theorem indentOf_spaces (i : Nat) (c : Char) (tl : List Char) (h : c ≠ ' ') :
    indentOf (ind i ++ c :: tl) = i := by
  induction i with
  | zero =>
    simp only [ind, List.replicate, List.nil_append]
    rw [indentOf.eq_def]
    split <;> simp_all
  | succ i ih =>
    simp only [ind, List.replicate, List.cons_append]
    rw [indentOf]
    simp only [ind] at ih
    omega

theorem drop_ind (i : Nat) (tl : List Char) : (ind i ++ tl).drop i = tl := by
  have : (ind i).length = i := by simp [ind]
  rw [List.drop_left' this]

theorem splitColon_append (kcs tl : List Char) (h : ':' ∉ kcs) :
    splitColon (kcs ++ ':' :: tl) = some (kcs, tl) := by
  induction kcs with
  | nil => simp [splitColon]
  | cons c rest ih =>
    have hc : c ≠ ':' := fun he => h (by simp [he])
    simp only [List.cons_append, splitColon, if_neg hc, List.append_eq]
    rw [ih (fun hm => h (by simp [hm]))]
    rfl

theorem isItemLine_of_indent_ne (j : Nat) (l : Line) (h : indentOf l ≠ j) :
    isItemLine j l = false := by
  simp [isItemLine, h]

theorem isItemLine_alpha (j i : Nat) (c : Char) (tl : List Char)
    (hc : isAlphaCh c = true) : isItemLine j (ind i ++ c :: tl) = false := by
  have hne := isAlphaCh_ne c hc
  have hin : indentOf (ind i ++ c :: tl) = i := indentOf_spaces _ _ _ hne.1
  by_cases hj : i = j
  · subst hj
    rw [isItemLine, hin, drop_ind]
    cases tl with
    | nil => simp
    | cons t tl' => simp [hne.2.1]
  · exact isItemLine_of_indent_ne j _ (by rw [hin]; exact hj)

/-- Every wellformed entry dumps to a first line of the form
`ind i ++ key …`, whose first payload character is a letter. -/
theorem dumpEntry_shape (i : Nat) (k : String) (v : PyVal)
    (hk : plainSafe k = true) (hv : wfVal v = true) :
    ∃ c tl rest, dumpEntry i k v = (ind i ++ c :: tl) :: rest ∧
      isAlphaCh c = true := by
  rcases plainSafe_shape k hk with ⟨c, cs, hdata, hca, _⟩
  cases v with
  | int n =>
    refine ⟨c, cs ++ ':' :: ' ' :: intChars n, [], ?_, hca⟩
    simp [dumpEntry, hdata]
  | str s =>
    refine ⟨c, cs ++ ':' :: ' ' :: s.data, [], ?_, hca⟩
    simp [dumpEntry, hdata]
  | list xs =>
    refine ⟨c, cs ++ [':'], dumpItems i xs, ?_, hca⟩
    simp [dumpEntry, hdata]
  | dict kvs =>
    refine ⟨c, cs ++ [':'], dumpKVs (i + 2) kvs, ?_, hca⟩
    simp [dumpEntry, hdata]
  | tuple xs => simp [wfVal] at hv
  | edict kvs => simp [wfVal] at hv

/-- Shape of the first line after a level-`i` block's entry: the next
entries of the same block start with a letter at column `i`, and whatever
follows the block is dedented. -/
theorem head_dumpKVs_append (i : Nat) (kvs : List (String × PyVal))
    (follower : List Line) (hwf : wfKVs kvs = true)
    (hstop : stopsKVs i follower) :
    dumpKVs i kvs ++ follower = [] ∨
      ∃ l ls, dumpKVs i kvs ++ follower = l :: ls ∧
        ((indentOf l = i ∧ isItemLine i l = false) ∨ indentOf l < i) := by
  cases kvs with
  | nil =>
    cases follower with
    | nil => exact Or.inl rfl
    | cons l ls =>
      exact Or.inr ⟨l, ls, by simp [dumpKVs], Or.inr hstop⟩
  | cons kv rest =>
    rcases kv with ⟨k, v⟩
    rw [wfKVs] at hwf
    simp only [Bool.and_eq_true] at hwf
    rcases dumpEntry_shape i k v hwf.1.1 hwf.1.2 with ⟨c, tl, r, he, hca⟩
    refine Or.inr ⟨ind i ++ c :: tl,
      r ++ dumpKVs i rest ++ follower, ?_, Or.inl ⟨?_, ?_⟩⟩
    · simp [dumpKVs, he]
    · exact indentOf_spaces _ _ _ (isAlphaCh_ne c hca).1
    · exact isItemLine_alpha i i c tl hca

theorem takeSeqItems_dump (i : Nat) (xs : List PyVal) (rest' : List Line)
    (hwf : wfItems xs = true) (hstop : stopsItems i rest') :
    takeSeqItems i (dumpItems i xs ++ rest') = (xs, rest') := by
  induction xs with
  | nil =>
    cases rest' with
    | nil => simp [dumpItems, takeSeqItems]
    | cons l ls =>
      rw [stopsItems] at hstop
      simp [dumpItems, takeSeqItems, hstop]
  | cons x xs ih =>
    have hline : isItemLine i (ind i ++ '-' :: ' ' :: scalarChars x) = true := by
      rw [isItemLine, indentOf_spaces _ _ _ (by decide), drop_ind]
      simp
    have hdrop : (ind i ++ '-' :: ' ' :: scalarChars x).drop (i + 2) =
        scalarChars x := by
      have he : ind i ++ '-' :: ' ' :: scalarChars x =
          (ind i ++ ['-', ' ']) ++ scalarChars x := by simp
      rw [he, List.drop_left' (by simp [ind])]
    have hsc : readScalar (scalarChars x) = x ∧ wfItems xs = true := by
      cases x with
      | int n => rw [wfItems] at hwf; exact ⟨readScalar_int n, hwf⟩
      | str s =>
        rw [wfItems] at hwf
        simp only [Bool.and_eq_true] at hwf
        exact ⟨readScalar_str s hwf.1, hwf.2⟩
      | list ys => simp [wfItems] at hwf
      | tuple ys => simp [wfItems] at hwf
      | dict kvs => simp [wfItems] at hwf
      | edict kvs => simp [wfItems] at hwf
    simp only [dumpItems, List.cons_append, takeSeqItems, hline, if_true,
      hdrop, hsc.1, List.append_eq]
    rw [ih hsc.2]

theorem stringMk_data (s : String) : String.mk s.data = s := rfl

theorem isItemLine_item (i : Nat) (v : List Char) :
    isItemLine i (ind i ++ '-' :: ' ' :: v) = true := by
  rw [isItemLine, indentOf_spaces _ _ _ (by decide), drop_ind]
  simp

theorem stopsItems_dump_append (i : Nat) (rest : List (String × PyVal))
    (follower : List Line) (hrest : wfKVs rest = true)
    (hstop : stopsKVs i follower) :
    stopsItems i (dumpKVs i rest ++ follower) := by
  rcases head_dumpKVs_append i rest follower hrest hstop with he | ⟨l, ls, he, hd⟩
  · rw [he]; trivial
  · rw [he, stopsItems]
    rcases hd with ⟨_, hitem⟩ | hlt
    · exact hitem
    · exact isItemLine_of_indent_ne i l (by omega)

theorem stopsKVs_dump_append (i j : Nat) (hij : i < j)
    (rest : List (String × PyVal)) (follower : List Line)
    (hrest : wfKVs rest = true) (hstop : stopsKVs i follower) :
    stopsKVs j (dumpKVs i rest ++ follower) := by
  rcases head_dumpKVs_append i rest follower hrest hstop with he | ⟨l, ls, he, hd⟩
  · rw [he]; trivial
  · rw [he, stopsKVs]
    rcases hd with ⟨hin, _⟩ | hlt <;> omega

/-- The core inverse lemma: parsing the dump of a wellformed entry list at
its own indentation consumes exactly the dumped lines and returns the
entries, leaving any dedented follower untouched. -/
theorem parseKVs_dump : ∀ (m : Nat) (kvs : List (String × PyVal)) (i : Nat)
    (follower : List Line) (fuel : Nat),
    sizeOf kvs ≤ m → wfKVs kvs = true → stopsKVs i follower →
    (dumpKVs i kvs ++ follower).length < fuel →
    parseKVs fuel i (dumpKVs i kvs ++ follower) = some (kvs, follower) := by
  intro m
  induction m using Nat.strong_induction_on with
  | _ m ih =>
    intro kvs i follower fuel hm hwf hstop hfuel
    cases kvs with
    | nil =>
      rcases fuel with _ | f
      · omega
      · cases follower with
        | nil => simp [dumpKVs, parseKVs]
        | cons l ls =>
          rw [stopsKVs] at hstop
          simp [dumpKVs, parseKVs, hstop]
    | cons kv rest =>
      rcases kv with ⟨k, v⟩
      rw [wfKVs] at hwf
      simp only [Bool.and_eq_true] at hwf
      obtain ⟨⟨hk, hv⟩, hrest⟩ := hwf
      rcases fuel with _ | f
      · omega
      rcases plainSafe_shape k hk with ⟨c, cs, hkdata, hca, _⟩
      have hkalpha := isAlphaCh_ne c hca
      have hszrest : sizeOf rest < m := by
        have : sizeOf ((k, v) :: rest) = 1 + sizeOf (k, v) + sizeOf rest := by
          simp
        omega
      have hkcons : k.data = c :: cs := hkdata
      have hknil : ¬(k.data = []) := by rw [hkcons]; simp
      cases v with
      | int n =>
        have hl : dumpKVs i ((k, .int n) :: rest) ++ follower =
            (ind i ++ (k.data ++ ':' :: ' ' :: intChars n)) ::
              (dumpKVs i rest ++ follower) := by
          simp [dumpKVs, dumpEntry]
        rw [hl]
        have hin : indentOf (ind i ++ (k.data ++ ':' :: ' ' :: intChars n)) = i := by
          rw [hkcons]
          exact indentOf_spaces i c _ hkalpha.1
        have hih := ih (sizeOf rest) hszrest rest i follower f le_rfl hrest hstop
          (by rw [hl] at hfuel; simp at hfuel ⊢; omega)
        simp [parseKVs, hin, drop_ind,
          splitColon_append _ _ (plainSafe_no_colon k hk), hknil, hih,
          stringMk_data, readScalar_int]
      | str s =>
        rw [wfVal] at hv
        have hl : dumpKVs i ((k, .str s) :: rest) ++ follower =
            (ind i ++ (k.data ++ ':' :: ' ' :: s.data)) ::
              (dumpKVs i rest ++ follower) := by
          simp [dumpKVs, dumpEntry]
        rw [hl]
        have hin : indentOf (ind i ++ (k.data ++ ':' :: ' ' :: s.data)) = i := by
          rw [hkcons]
          exact indentOf_spaces i c _ hkalpha.1
        have hih := ih (sizeOf rest) hszrest rest i follower f le_rfl hrest hstop
          (by rw [hl] at hfuel; simp at hfuel ⊢; omega)
        simp [parseKVs, hin, drop_ind,
          splitColon_append _ _ (plainSafe_no_colon k hk), hknil, hih,
          stringMk_data, readScalar_str s hv]
      | list xs =>
        rw [wfVal] at hv
        simp only [Bool.and_eq_true, Bool.not_eq_true'] at hv
        obtain ⟨hxne, hitems⟩ := hv
        rcases xs with _ | ⟨x, xs'⟩
        · simp at hxne
        have hl : dumpKVs i ((k, .list (x :: xs')) :: rest) ++ follower =
            (ind i ++ (k.data ++ [':'])) ::
              ((ind i ++ '-' :: ' ' :: scalarChars x) ::
                (dumpItems i xs' ++ (dumpKVs i rest ++ follower))) := by
          simp [dumpKVs, dumpEntry, dumpItems]
        rw [hl]
        have hin : indentOf (ind i ++ (k.data ++ [':'])) = i := by
          rw [hkcons]
          exact indentOf_spaces i c _ hkalpha.1
        have hsplit : splitColon (k.data ++ ':' :: []) = some (k.data, []) :=
          splitColon_append k.data [] (plainSafe_no_colon k hk)
        have htake : takeSeqItems i
            ((ind i ++ '-' :: ' ' :: scalarChars x) ::
              (dumpItems i xs' ++ (dumpKVs i rest ++ follower))) =
            (x :: xs', dumpKVs i rest ++ follower) := by
          have := takeSeqItems_dump i (x :: xs') (dumpKVs i rest ++ follower)
            hitems (stopsItems_dump_append i rest follower hrest hstop)
          simpa [dumpItems] using this
        have hih := ih (sizeOf rest) hszrest rest i follower f le_rfl hrest hstop
          (by rw [hl] at hfuel; simp at hfuel ⊢; omega)
        simp [parseKVs, hin, drop_ind, hsplit, hknil, isItemLine_item,
          htake, hih, stringMk_data]
      | dict kvs' =>
        rw [wfVal] at hv
        simp only [Bool.and_eq_true, Bool.not_eq_true'] at hv
        obtain ⟨⟨hkne', hwf'⟩, _hdk⟩ := hv
        rcases kvs' with _ | ⟨⟨k2, v2⟩, r2⟩
        · simp at hkne'
        have hwf2 : plainSafe k2 = true ∧ wfVal v2 = true ∧ wfKVs r2 = true := by
          rw [wfKVs] at hwf'
          simp only [Bool.and_eq_true] at hwf'
          exact ⟨hwf'.1.1, hwf'.1.2, hwf'.2⟩
        rcases dumpEntry_shape (i + 2) k2 v2 hwf2.1 hwf2.2.1 with
          ⟨c2, tl2, r2l, he2, hca2⟩
        have hl : dumpKVs i ((k, .dict ((k2, v2) :: r2)) :: rest) ++ follower =
            (ind i ++ (k.data ++ [':'])) ::
              ((ind (i + 2) ++ c2 :: tl2) ::
                (r2l ++ (dumpKVs (i + 2) r2 ++ (dumpKVs i rest ++ follower)))) := by
          simp [dumpKVs, dumpEntry, he2]
        have hl2 : dumpKVs (i + 2) ((k2, v2) :: r2) ++ (dumpKVs i rest ++ follower) =
            (ind (i + 2) ++ c2 :: tl2) ::
              (r2l ++ (dumpKVs (i + 2) r2 ++ (dumpKVs i rest ++ follower))) := by
          simp [dumpKVs, he2]
        rw [hl]
        have hin : indentOf (ind i ++ (k.data ++ [':'])) = i := by
          rw [hkcons]
          exact indentOf_spaces i c _ hkalpha.1
        have hsplit : splitColon (k.data ++ ':' :: []) = some (k.data, []) :=
          splitColon_append k.data [] (plainSafe_no_colon k hk)
        have hin2 : indentOf (ind (i + 2) ++ c2 :: tl2) = i + 2 :=
          indentOf_spaces (i + 2) c2 tl2 (isAlphaCh_ne c2 hca2).1
        have hitem2 : isItemLine i (ind (i + 2) ++ c2 :: tl2) = false :=
          isItemLine_of_indent_ne i _ (by omega)
        have hszkvs : sizeOf ((k2, v2) :: r2) < m := by
          have h1 : sizeOf ((k, PyVal.dict ((k2, v2) :: r2)) :: rest) =
              1 + sizeOf (k, PyVal.dict ((k2, v2) :: r2)) + sizeOf rest := by simp
          have h2 : sizeOf (k, PyVal.dict ((k2, v2) :: r2)) =
              1 + sizeOf k + sizeOf (PyVal.dict ((k2, v2) :: r2)) := by simp
          have h3 : sizeOf (PyVal.dict ((k2, v2) :: r2)) =
              1 + sizeOf ((k2, v2) :: r2) := by simp
          omega
        have hnest := ih (sizeOf ((k2, v2) :: r2)) hszkvs ((k2, v2) :: r2) (i + 2)
          (dumpKVs i rest ++ follower) f le_rfl hwf'
          (stopsKVs_dump_append i (i + 2) (by omega) rest follower hrest hstop)
          (by rw [hl] at hfuel; rw [hl2]; simp at hfuel ⊢; omega)
        rw [hl2] at hnest
        have hih := ih (sizeOf rest) hszrest rest i follower f le_rfl hrest hstop
          (by rw [hl] at hfuel; simp at hfuel ⊢; omega)
        simp [parseKVs, hin, drop_ind, hsplit, hknil, hitem2, hin2,
          hnest, hih, stringMk_data]
      | tuple xs => simp [wfVal] at hv
      | edict kvs' => simp [wfVal] at hv

/-! ### Dumped lines are newline-free and distinct from the separator -/

theorem noNL_ind (i : Nat) : '\n' ∉ ind i := by
  intro h
  rw [ind] at h
  have := List.eq_of_mem_replicate h
  cases this

theorem mem_natCharsAux_isDig (fuel n : Nat) (c : Char)
    (h : c ∈ natCharsAux fuel n) : isDig c = true :=
  List.all_eq_true.mp (natCharsAux_digits fuel n) c h

theorem noNL_intChars (n : Int) : '\n' ∉ intChars n := by
  intro h
  rw [intChars] at h
  by_cases hn : n < 0
  · rw [if_pos hn] at h
    rcases List.mem_cons.mp h with he | h
    · cases he
    · have := mem_natCharsAux_isDig _ _ _ h
      cases this
  · rw [if_neg hn] at h
    have := mem_natCharsAux_isDig _ _ _ h
    cases this

theorem noNL_scalarChars (x : PyVal) (h : wfItems [x] = true) :
    '\n' ∉ scalarChars x := by
  cases x with
  | int n => exact noNL_intChars n
  | str s =>
    rw [wfItems] at h
    simp only [Bool.and_eq_true] at h
    exact plainSafe_no_nl s h.1
  | list ys => simp [wfItems] at h
  | tuple ys => simp [wfItems] at h
  | dict kvs => simp [wfItems] at h
  | edict kvs => simp [wfItems] at h

theorem ne_docSep (i : Nat) (c : Char) (tl : List Char) (hc : c ≠ '-') :
    ind i ++ c :: tl ≠ docSepLine := by
  cases i with
  | zero =>
    intro he
    rw [ind] at he
    simp only [List.replicate, List.nil_append, docSepLine] at he
    exact hc (List.cons.injEq .. ▸ he).1
  | succ i =>
    intro he
    rw [ind] at he
    simp only [List.replicate, List.cons_append, docSepLine] at he
    have : ' ' = '-' := (List.cons.injEq .. ▸ he).1
    cases this

theorem goodLine_entry (i : Nat) (k : String) (tl : List Char)
    (hk : plainSafe k = true) (htl : '\n' ∉ tl) :
    goodLine (ind i ++ (k.data ++ tl)) := by
  rcases plainSafe_shape k hk with ⟨c, cs, hdata, hca, hcs⟩
  constructor
  · intro h
    rcases List.mem_append.mp h with h | h
    · exact noNL_ind i h
    rcases List.mem_append.mp h with h | h
    · rw [hdata] at h
      rcases List.mem_cons.mp h with he | h
      · exact (isAlphaCh_ne c hca).2.2.2.1 he.symm
      · exact (plainChar_ne _ (hcs _ h)).2 rfl
    · exact htl h
  · rw [hdata, List.cons_append]
    exact ne_docSep i c _ (isAlphaCh_ne c hca).2.1

theorem goodLine_item (i : Nat) (x : PyVal) (hx : wfItems [x] = true) :
    goodLine (ind i ++ '-' :: ' ' :: scalarChars x) := by
  constructor
  · intro h
    rcases List.mem_append.mp h with h | h
    · exact noNL_ind i h
    rcases List.mem_cons.mp h with he | h
    · cases he
    rcases List.mem_cons.mp h with he | h
    · cases he
    · exact noNL_scalarChars x hx h
  · cases i with
    | zero =>
      intro he
      rw [ind] at he
      simp only [List.replicate, List.nil_append, docSepLine,
        List.cons.injEq] at he
      cases he.2.1
    | succ i =>
      intro he
      rw [ind] at he
      simp only [List.replicate, List.cons_append, docSepLine,
        List.cons.injEq] at he
      cases he.1

theorem dumpItems_good (i : Nat) (xs : List PyVal) (hwf : wfItems xs = true) :
    ∀ l ∈ dumpItems i xs, goodLine l := by
  induction xs with
  | nil => simp [dumpItems]
  | cons x xs ih =>
    have hx : wfItems [x] = true ∧ wfItems xs = true := by
      cases x with
      | int n => rw [wfItems] at hwf; exact ⟨rfl, hwf⟩
      | str s =>
        rw [wfItems] at hwf
        simp only [Bool.and_eq_true] at hwf
        exact ⟨by simp [wfItems, hwf.1], hwf.2⟩
      | list ys => simp [wfItems] at hwf
      | tuple ys => simp [wfItems] at hwf
      | dict kvs => simp [wfItems] at hwf
      | edict kvs => simp [wfItems] at hwf
    intro l hl
    rw [dumpItems] at hl
    rcases List.mem_cons.mp hl with he | hl
    · rw [he]; exact goodLine_item i x hx.1
    · exact ih hx.2 l hl

theorem dumpKVs_good : ∀ (i : Nat) (kvs : List (String × PyVal)),
    wfKVs kvs = true → ∀ l ∈ dumpKVs i kvs, goodLine l := by
  refine dumpKVs.induct
    (fun i kvs => wfKVs kvs = true → ∀ l ∈ dumpKVs i kvs, goodLine l)
    (fun i k v => plainSafe k = true → wfVal v = true →
      ∀ l ∈ dumpEntry i k v, goodLine l)
    ?_ ?_ ?_ ?_ ?_ ?_ ?_
  · intro i k n hk _ l hl
    rw [dumpEntry] at hl
    rcases List.mem_cons.mp hl with he | hl
    · rw [he, List.append_assoc]
      exact goodLine_entry i k _ hk (by
        intro h
        rcases List.mem_cons.mp h with he2 | h
        · cases he2
        rcases List.mem_cons.mp h with he2 | h
        · cases he2
        · exact noNL_intChars n h)
    · simp at hl
  · intro i k s hk hv l hl
    rw [wfVal] at hv
    rw [dumpEntry] at hl
    rcases List.mem_cons.mp hl with he | hl
    · rw [he, List.append_assoc]
      exact goodLine_entry i k _ hk (by
        intro h
        rcases List.mem_cons.mp h with he2 | h
        · cases he2
        rcases List.mem_cons.mp h with he2 | h
        · cases he2
        · exact plainSafe_no_nl s hv h)
    · simp at hl
  · intro i k xs hk hv l hl
    rw [wfVal] at hv
    simp only [Bool.and_eq_true] at hv
    rw [dumpEntry] at hl
    rcases List.mem_cons.mp hl with he | hl
    · rw [he, List.append_assoc]
      exact goodLine_entry i k _ hk (by simp)
    · exact dumpItems_good i xs hv.2 l hl
  · intro i k kvs ih hk hv l hl
    rw [wfVal] at hv
    simp only [Bool.and_eq_true] at hv
    rw [dumpEntry] at hl
    rcases List.mem_cons.mp hl with he | hl
    · rw [he, List.append_assoc]
      exact goodLine_entry i k _ hk (by simp)
    · exact ih hv.1.2 l hl
  · intro t i k h1 h2 h3 h4 _ hv
    cases t with
    | int n => exact absurd rfl (h1 n)
    | str s => exact absurd rfl (h2 s)
    | list xs => exact absurd rfl (h3 xs)
    | dict kvs => exact absurd rfl (h4 kvs)
    | tuple xs => simp [wfVal] at hv
    | edict kvs => simp [wfVal] at hv
  · intro i _ l hl
    simp [dumpKVs] at hl
  · intro i k v rest ihe ihr hwf l hl
    rw [wfKVs] at hwf
    simp only [Bool.and_eq_true] at hwf
    rw [dumpKVs] at hl
    rcases List.mem_append.mp hl with hl | hl
    · exact ihe hwf.1.1 hwf.1.2 l hl
    · exact ihr hwf.2 l hl

/-! ### Text/line and document-separator glue -/

theorem splitNL_append (l : Line) (cs : List Char) (h : '\n' ∉ l) :
    splitNL (l ++ '\n' :: cs) = l :: splitNL cs := by
  induction l with
  | nil => simp [splitNL]
  | cons c l' ih =>
    have hc : c ≠ '\n' := fun he => h (by simp [he])
    simp only [List.cons_append, splitNL, if_neg hc, List.append_eq]
    rw [ih (fun hm => h (by simp [hm]))]

theorem splitNL_flatten (ls : List Line) (h : ∀ l ∈ ls, '\n' ∉ l) :
    splitNL ((ls.map (fun l => l ++ ['\n'])).flatten) = ls ++ [[]] := by
  induction ls with
  | nil => simp [splitNL]
  | cons l ls ih =>
    simp only [List.map_cons, List.flatten_cons, List.append_assoc,
      List.singleton_append]
    rw [splitNL_append l _ (h l (by simp))]
    rw [ih (fun x hx => h x (by simp [hx]))]
    rfl

theorem linesOf_textOfLines (ls : List Line) (h : ∀ l ∈ ls, '\n' ∉ l) :
    linesOf (textOfLines ls).data = some ls := by
  have hdata : (textOfLines ls).data = (ls.map (fun l => l ++ ['\n'])).flatten :=
    rfl
  rw [hdata, linesOf]
  cases ls with
  | nil => simp
  | cons l ls' =>
    have hne : ((l :: ls').map (fun l => l ++ ['\n'])).flatten ≠ [] := by
      simp only [List.map_cons, List.flatten_cons]
      cases l <;> simp
    rw [if_neg (by simp [List.isEmpty_iff, hne])]
    rw [splitNL_flatten _ h]
    simp only [show l :: ls' ++ [[]] = (l :: ls') ++ [[]] from rfl,
      List.getLast?_concat, List.dropLast_concat]
    simp

theorem splitSep_nosep (ls : List Line) (h : ∀ l ∈ ls, l ≠ docSepLine) :
    splitSep ls = [ls] := by
  induction ls with
  | nil => rfl
  | cons l rest ih =>
    rw [splitSep, if_neg (h l (by simp))]
    rw [ih (fun x hx => h x (by simp [hx]))]

theorem splitSep_append (a tl : List Line) (ha : ∀ l ∈ a, l ≠ docSepLine) :
    splitSep (a ++ docSepLine :: tl) = a :: splitSep tl := by
  induction a with
  | nil => simp [splitSep]
  | cons l a' ih =>
    rw [List.cons_append, splitSep, if_neg (ha l (by simp))]
    rw [ih (fun x hx => ha x (by simp [hx]))]

theorem splitSep_joinSep (chunks : List (List Line)) (hne : chunks ≠ [])
    (h : ∀ c ∈ chunks, ∀ l ∈ c, l ≠ docSepLine) :
    splitSep (joinSep chunks) = chunks := by
  induction chunks with
  | nil => exact absurd rfl hne
  | cons c rest ih =>
    cases rest with
    | nil => exact splitSep_nosep c (h c (by simp))
    | cons c2 r2 =>
      have hj : joinSep (c :: c2 :: r2) = c ++ docSepLine :: joinSep (c2 :: r2) :=
        rfl
      rw [hj, splitSep_append c _ (h c (by simp))]
      rw [ih (by simp) (fun x hx => h x (by simp [hx]))]

theorem mem_joinSep (chunks : List (List Line)) (l : Line)
    (h : l ∈ joinSep chunks) : (∃ c ∈ chunks, l ∈ c) ∨ l = docSepLine := by
  induction chunks with
  | nil => simp [joinSep] at h
  | cons c rest ih =>
    cases rest with
    | nil =>
      rw [joinSep] at h
      exact Or.inl ⟨c, by simp, h⟩
    | cons c2 r2 =>
      have hj : joinSep (c :: c2 :: r2) = c ++ docSepLine :: joinSep (c2 :: r2) :=
        rfl
      rw [hj] at h
      rcases List.mem_append.mp h with h | h
      · exact Or.inl ⟨c, by simp, h⟩
      rcases List.mem_cons.mp h with he | h
      · exact Or.inr he
      · rcases ih h with ⟨c', hc', hl'⟩ | he
        · exact Or.inl ⟨c', by simp [hc'], hl'⟩
        · exact Or.inr he

/-! ### Whole-document round trip -/

theorem parseDoc_dump (d : PyVal) (h : wfDoc d = true) :
    parseDoc (dumpDoc d) = some d := by
  cases d with
  | dict kvs =>
    rw [wfDoc] at h
    simp only [Bool.and_eq_true, Bool.not_eq_true'] at h
    obtain ⟨⟨hne, hwf⟩, _⟩ := h
    have hp := parseKVs_dump (sizeOf kvs) kvs 0 [] ((dumpKVs 0 kvs).length + 1)
      le_rfl hwf trivial (by simp)
    rw [List.append_nil] at hp
    rw [parseDoc, dumpDoc, hp]
    cases kvs with
    | nil => simp at hne
    | cons e rest => simp
  | int n => simp [wfDoc] at h
  | str s => simp [wfDoc] at h
  | list xs => simp [wfDoc] at h
  | tuple xs => simp [wfDoc] at h
  | edict kvs => simp [wfDoc] at h

theorem parseDocs_map (docs : List PyVal) (h : docs.all wfDoc = true) :
    parseDocs (docs.map dumpDoc) = some docs := by
  induction docs with
  | nil => rfl
  | cons d rest ih =>
    rw [List.all_cons, Bool.and_eq_true] at h
    simp [parseDocs, parseDoc_dump d h.1, ih h.2]

theorem dumpDoc_ne_nil (d : PyVal) (h : wfDoc d = true) : dumpDoc d ≠ [] := by
  cases d with
  | dict kvs =>
    rw [wfDoc] at h
    simp only [Bool.and_eq_true, Bool.not_eq_true'] at h
    obtain ⟨⟨hne, hwf⟩, _⟩ := h
    cases kvs with
    | nil => simp at hne
    | cons kv rest =>
      rcases kv with ⟨k, v⟩
      rw [wfKVs] at hwf
      simp only [Bool.and_eq_true] at hwf
      rcases dumpEntry_shape 0 k v hwf.1.1 hwf.1.2 with ⟨c, tl, r, he, _⟩
      rw [dumpDoc, dumpKVs, he]
      simp
  | int n => simp [wfDoc] at h
  | str s => simp [wfDoc] at h
  | list xs => simp [wfDoc] at h
  | tuple xs => simp [wfDoc] at h
  | edict kvs => simp [wfDoc] at h

theorem dumpDoc_good (d : PyVal) (h : wfDoc d = true) :
    ∀ l ∈ dumpDoc d, goodLine l := by
  cases d with
  | dict kvs =>
    rw [wfDoc] at h
    simp only [Bool.and_eq_true, Bool.not_eq_true'] at h
    exact dumpKVs_good 0 kvs h.1.2
  | int n => simp [wfDoc] at h
  | str s => simp [wfDoc] at h
  | list xs => simp [wfDoc] at h
  | tuple xs => simp [wfDoc] at h
  | edict kvs => simp [wfDoc] at h

theorem yamlLoadAll_dumpAll (docs : List PyVal) (h : docs.all wfDoc = true) :
    yamlLoadAll (yamlDumpAll docs) = some docs := by
  have hnl : ∀ l ∈ dumpAllLines docs, '\n' ∉ l := by
    intro l hl
    rw [dumpAllLines] at hl
    rcases mem_joinSep _ l hl with ⟨c, hc, hlc⟩ | he
    · rcases List.mem_map.mp hc with ⟨d, hd, rfl⟩
      exact (dumpDoc_good d (List.all_eq_true.mp h d hd) l hlc).1
    · rw [he]; decide
  rw [yamlDumpAll, yamlLoadAll, linesOf_textOfLines _ hnl]
  cases docs with
  | nil => rfl
  | cons d rest =>
    have hd : wfDoc d = true := by
      rw [List.all_cons, Bool.and_eq_true] at h
      exact h.1
    have hlines_ne : dumpAllLines (d :: rest) ≠ [] := by
      rw [dumpAllLines, List.map_cons]
      cases hr : rest.map dumpDoc with
      | nil =>
        rw [joinSep]
        exact dumpDoc_ne_nil d hd
      | cons c2 r2 =>
        have hj : joinSep (dumpDoc d :: c2 :: r2) =
            dumpDoc d ++ docSepLine :: joinSep (c2 :: r2) := rfl
        rw [hj]
        cases hdd : dumpDoc d <;> simp
    have hsep : splitSep (dumpAllLines (d :: rest)) =
        (d :: rest).map dumpDoc := by
      rw [dumpAllLines]
      apply splitSep_joinSep
      · simp
      · intro c hc l hl
        rcases List.mem_map.mp hc with ⟨d', hd', rfl⟩
        exact (dumpDoc_good d' (List.all_eq_true.mp h d' hd') l hl).2
    rcases hls : dumpAllLines (d :: rest) with _ | ⟨l0, tl0⟩
    · exact absurd hls hlines_ne
    · show parseDocs (splitSep (l0 :: tl0)) = some (d :: rest)
      rw [← hls, hsep]
      exact parseDocs_map _ h

/-- On a wellformed plain mapping, easydict wrapping followed by
`recursive_to_dict` is the identity. -/
theorem rtd_easyDict : ∀ kvs : List (String × PyVal),
    wfKVs kvs = true → recursive_to_dict (easyDict kvs) = kvs := by
  refine easyDict.induct
    (fun kvs => wfKVs kvs = true → recursive_to_dict (easyDict kvs) = kvs)
    (fun v => wfVal v = true → rtdValue (easyAttr v) = v)
    (fun xs => wfItems xs = true → rtdElems (easyElems xs) = xs)
    ?_ ?_ ?_ ?_ ?_ ?_ ?_ ?_ ?_ ?_ ?_
  · intro xs ih h
    rw [wfVal] at h
    simp only [Bool.and_eq_true] at h
    simp [easyAttr, rtdValue, ih h.2]
  · intro xs _ h
    simp [wfVal] at h
  · intro kvs ih h
    rw [wfVal] at h
    simp only [Bool.and_eq_true] at h
    simp [easyAttr, rtdValue, ih h.1.2]
  · intro kvs h
    simp [wfVal] at h
  · intro v h1 h2 h3 h4 _
    cases v with
    | list xs => exact absurd rfl (h1 xs)
    | tuple xs => exact absurd rfl (h2 xs)
    | dict kvs => exact absurd rfl (h3 kvs)
    | edict kvs => exact absurd rfl (h4 kvs)
    | int n => simp [easyAttr, rtdValue]
    | str s => simp [easyAttr, rtdValue]
  · intro _
    simp [easyElems, rtdElems]
  · intro kvs xs _ _ h
    simp [wfItems] at h
  · intro kvs xs _ _ h
    simp [wfItems] at h
  · intro x xs hnd hne ih h
    have hx : wfItems xs = true ∧ easyElems (x :: xs) = x :: easyElems xs ∧
        rtdElems (x :: easyElems xs) = x :: rtdElems (easyElems xs) := by
      cases x with
      | int n => exact ⟨by rw [wfItems] at h; exact h, by simp [easyElems], rfl⟩
      | str s =>
        rw [wfItems] at h
        simp only [Bool.and_eq_true] at h
        exact ⟨h.2, by simp [easyElems], rfl⟩
      | list ys => simp [wfItems] at h
      | tuple ys => simp [wfItems] at h
      | dict kvs => exact absurd rfl (hnd kvs)
      | edict kvs => exact absurd rfl (hne kvs)
    rw [hx.2.1, hx.2.2, ih hx.1]
  · intro _
    simp [easyDict, recursive_to_dict]
  · intro k v rest ihv ihr h
    rw [wfKVs] at h
    simp only [Bool.and_eq_true] at h
    simp [easyDict, recursive_to_dict, ihv h.1.2, ihr h.2]

theorem wfDoc_isDict (d : PyVal) (h : wfDoc d = true) : pyIsDict d = true := by
  cases d <;> simp [wfDoc, pyIsDict] at h ⊢

theorem rtdTop_wrap (d : PyVal) (h : wfDoc d = true) :
    rtdTop (easyDictWrap d) = d := by
  cases d with
  | dict kvs =>
    rw [wfDoc] at h
    simp only [Bool.and_eq_true, Bool.not_eq_true'] at h
    simp [easyDictWrap, rtdTop, rtd_easyDict kvs h.1.2]
  | int n => simp [wfDoc] at h
  | str s => simp [wfDoc] at h
  | list xs => simp [wfDoc] at h
  | tuple xs => simp [wfDoc] at h
  | edict kvs => simp [wfDoc] at h

/-- C4: for every wellformed mapping-only parsed document stream,
`from_string` accepts the documents, and serializing the resulting
collection with `to_string` and loading the text back yields exactly the
same documents — same count, equal key-by-key. -/
theorem yaml_roundtrip (docs : List PyVal) (h : docs.all wfDoc = true) :
    YamlList.from_docs docs = .ok ⟨docs.map easyDictWrap⟩ ∧
    yamlLoadAll (YamlList.to_string ⟨docs.map easyDictWrap⟩) = some docs := by
  constructor
  · rw [YamlList.from_docs, yamlListInit]
    rw [checkAllDicts_ok docs
      (fun d hd => wfDoc_isDict d (List.all_eq_true.mp h d hd))]
  · have hmap : (docs.map easyDictWrap).map rtdTop = docs := by
      rw [List.map_map]
      have : ∀ d ∈ docs, (rtdTop ∘ easyDictWrap) d = id d := by
        intro d hd
        exact rtdTop_wrap d (List.all_eq_true.mp h d hd)
      rw [List.map_congr_left this, List.map_id]
    rw [YamlList.to_string]
    simp only [hmap]
    exact yamlLoadAll_dumpAll docs h

/-- C4 witness: a two-document stream with nested mappings and a sequence
value. -/
theorem yaml_roundtrip_witness :
    YamlList.from_docs
        [.dict [("apiVersion", .str "v1"),
                ("spec", .dict [("replicas", .int 3),
                                ("ports", .list [.int 80, .int 443])])],
         .dict [("name", .str "svc")]] =
      .ok ⟨[.dict [("apiVersion", .str "v1"),
                   ("spec", .dict [("replicas", .int 3),
                                   ("ports", .list [.int 80, .int 443])])],
            .dict [("name", .str "svc")]].map easyDictWrap⟩ ∧
    yamlLoadAll (YamlList.to_string
        ⟨[.dict [("apiVersion", .str "v1"),
                 ("spec", .dict [("replicas", .int 3),
                                 ("ports", .list [.int 80, .int 443])])],
          .dict [("name", .str "svc")]].map easyDictWrap⟩) =
      some [.dict [("apiVersion", .str "v1"),
                   ("spec", .dict [("replicas", .int 3),
                                   ("ports", .list [.int 80, .int 443])])],
            .dict [("name", .str "svc")]] :=
  yaml_roundtrip
    [.dict [("apiVersion", .str "v1"),
            ("spec", .dict [("replicas", .int 3),
                            ("ports", .list [.int 80, .int 443])])],
     .dict [("name", .str "svc")]] (by decide)

end YamlUtil
